import Mathlib

/-!
Shallow embedding of the `type_checker` repository (crates `abst` and
`constraint`) and verification of its specification claims.

The `abst` crate implements an abstract interpreter over a small dynamic
language: an abstract-value lattice with a `merge` join, an analysis state
(variables + function table), and a tree-walking evaluator.  The
`constraint` crate implements a small unification-based type inferencer.

Rust `HashSet`/`HashMap` iteration order is not deterministic; wherever the
source collects a hash container into an ordered one (the `Union` variant
list built in `AbstractValue::merge`, the iteration in
`AbstractState::merge`), this embedding fixes insertion order as the
deterministic refinement of that behaviour.
-/

namespace TypeChecker

/-- `AbstractValue` from `abst/src/types.rs`.  `object` carries the
`BTreeMap<String, AbstractValue>` as a key-sorted association list, `array`
and `union` carry their `Vec` payloads as lists. -/
inductive AV where
  | undefined : AV
  | null : AV
  | boolean : AV
  | number : AV
  | string : AV
  | object : List (String × AV) → AV
  | array : List AV → AV
  | union : List AV → AV
  | generic : String → AV → AV
  deriving Repr

mutual

/-- Structural equality on abstract values (the derived `PartialEq` of
`AbstractValue`), as a Boolean test. -/
def beqAV : AV → AV → Bool
  | .undefined, .undefined => true
  | .null, .null => true
  | .boolean, .boolean => true
  | .number, .number => true
  | .string, .string => true
  | .object ps, .object qs => beqProps ps qs
  | .array as_, .array bs => beqAVs as_ bs
  | .union as_, .union bs => beqAVs as_ bs
  | .generic n a, .generic m b => n == m && beqAV a b
  | _, _ => false

/-- Structural equality of abstract-value lists. -/
def beqAVs : List AV → List AV → Bool
  | [], [] => true
  | a :: as_, b :: bs => beqAV a b && beqAVs as_ bs
  | _, _ => false

/-- Structural equality of property lists. -/
def beqProps : List (String × AV) → List (String × AV) → Bool
  | [], [] => true
  | (k, v) :: ps, (l, w) :: qs => k == l && beqAV v w && beqProps ps qs
  | _, _ => false

end

theorem beqAVs_iff_of (as_ bs : List AV)
    (h : ∀ a ∈ as_, ∀ b, beqAV a b = true ↔ a = b) :
    beqAVs as_ bs = true ↔ as_ = bs := by
  induction as_ generalizing bs with
  | nil => cases bs <;> simp [beqAVs]
  | cons a as_ ih =>
    cases bs with
    | nil => simp [beqAVs]
    | cons b bs =>
      have ha := h a (by simp)
      have hrest : ∀ x ∈ as_, ∀ y, beqAV x y = true ↔ x = y := by
        intro x hx y; exact h x (by simp [hx]) y
      simp [beqAVs, ha, ih bs hrest]

theorem beqProps_iff_of (ps qs : List (String × AV))
    (h : ∀ p ∈ ps, ∀ b, beqAV p.2 b = true ↔ p.2 = b) :
    beqProps ps qs = true ↔ ps = qs := by
  induction ps generalizing qs with
  | nil => cases qs <;> simp [beqProps]
  | cons p ps ih =>
    cases qs with
    | nil => simp [beqProps]
    | cons q qs =>
      obtain ⟨k, v⟩ := p
      obtain ⟨l, w⟩ := q
      have hv := h (k, v) (by simp)
      have hrest : ∀ x ∈ ps, ∀ y, beqAV x.2 y = true ↔ x.2 = y := by
        intro x hx y; exact h x (by simp [hx]) y
      simp [beqProps, hv, ih qs hrest, beq_iff_eq, and_assoc]

theorem beqAV_iff_aux : ∀ (n : Nat) (a b : AV), sizeOf a ≤ n →
    (beqAV a b = true ↔ a = b) := by
  intro n
  induction n with
  | zero =>
    intro a b h
    cases a <;> simp at h
  | succ n ih =>
    intro a b h
    cases a <;> cases b <;> simp [beqAV]
    case object.object ps qs =>
      have hsz : sizeOf ps ≤ n := by simp at h; omega
      refine beqProps_iff_of ps qs ?_
      intro p hp b
      have h1 : sizeOf p < sizeOf ps := List.sizeOf_lt_of_mem hp
      have h2 : sizeOf p.2 < sizeOf p := by
        obtain ⟨x, y⟩ := p; simp
      exact ih p.2 b (by omega)
    case array.array as_ bs =>
      have hsz : sizeOf as_ ≤ n := by simp at h; omega
      refine beqAVs_iff_of as_ bs ?_
      intro a ha b
      have h1 : sizeOf a < sizeOf as_ := List.sizeOf_lt_of_mem ha
      exact ih a b (by omega)
    case union.union as_ bs =>
      have hsz : sizeOf as_ ≤ n := by simp at h; omega
      refine beqAVs_iff_of as_ bs ?_
      intro a ha b
      have h1 : sizeOf a < sizeOf as_ := List.sizeOf_lt_of_mem ha
      exact ih a b (by omega)
    case generic.generic s a t b =>
      have hsz : sizeOf a ≤ n := by simp at h; omega
      simp [ih a b hsz, beq_iff_eq]

theorem beqAV_iff (a b : AV) : beqAV a b = true ↔ a = b :=
  beqAV_iff_aux (sizeOf a) a b le_rfl

instance : DecidableEq AV :=
  fun a b => decidable_of_iff (beqAV a b = true) (beqAV_iff a b)

mutual

/-- `AbstractValue::collect_variants` (`types.rs`): flatten a value into a
set of non-union variants.  The Rust code inserts into a `HashSet`; the
embedding keeps the set as an insertion-ordered duplicate-free list. -/
def collectInto : AV → List AV → List AV
  | .union vs, acc => collectListInto vs acc
  | v, acc => if v ∈ acc then acc else acc ++ [v]

/-- Folding `collect_variants` over the members of a union. -/
def collectListInto : List AV → List AV → List AV
  | [], acc => acc
  | v :: vs, acc => collectListInto vs (collectInto v acc)

end

/-- The final step of `AbstractValue::merge`'s default case: a one-element
variant set collapses to its element, otherwise a `Union` is built. -/
def mkUnion (l : List AV) : AV :=
  match l with
  | [x] => x
  | _ => .union l

mutual

/-- `AbstractValue::merge` from `abst/src/types.rs`: step 1 returns `self`
on structural equality, step 2 eliminates `Undefined` on either side, step
3 merges arrays index-wise, objects key-wise, and everything else by
flattening both sides into one variant set. -/
def merge (a b : AV) : AV :=
  if a = b then a
  else if a = .undefined then b
  else if b = .undefined then a
  else
    match a, b with
    | .array as_, .array bs => .array (mergeElems as_ bs)
    | .object ps, .object qs => .object (mergeProps ps qs)
    | _, _ => mkUnion (collectInto b (collectInto a []))

/-- Index-wise merge of two `Array` payloads: up to the longer length, a
missing slot on either side is `Undefined` (`types.rs` lines 62-72). -/
def mergeElems : List AV → List AV → List AV
  | [], [] => []
  | a :: as_, [] => merge a .undefined :: mergeElems as_ []
  | [], b :: bs => merge .undefined b :: mergeElems [] bs
  | a :: as_, b :: bs => merge a b :: mergeElems as_ bs

/-- Key-wise merge of two `Object` payloads over the union of their keys,
a missing key counting as `Undefined`; the result is rebuilt into a
`BTreeMap`, i.e. stays sorted by key (`types.rs` lines 74-87). -/
def mergeProps : List (String × AV) → List (String × AV) → List (String × AV)
  | [], qs => qs
  | ps, [] => ps
  | (k₁, v₁) :: ps, (k₂, v₂) :: qs =>
    if k₁ < k₂ then (k₁, v₁) :: mergeProps ps ((k₂, v₂) :: qs)
    else if k₂ < k₁ then (k₂, v₂) :: mergeProps ((k₁, v₁) :: ps) qs
    else (k₁, merge v₁ v₂) :: mergeProps ps qs

end

mutual

/-- Equality of abstract values up to recursive reordering of `Union`
variant lists: the same relation as structural equality except that the
member list of a `union` may be permuted (and members compared again up to
this relation).  This is the precise sense in which the order produced by
the Rust `HashSet` iteration in `merge`'s default case is immaterial. -/
inductive AVEquiv : AV → AV → Prop where
  | undefined : AVEquiv .undefined .undefined
  | null : AVEquiv .null .null
  | boolean : AVEquiv .boolean .boolean
  | number : AVEquiv .number .number
  | string : AVEquiv .string .string
  | object : ∀ ps qs, AVPropsEquiv ps qs → AVEquiv (.object ps) (.object qs)
  | array : ∀ as_ bs, AVListEquiv as_ bs → AVEquiv (.array as_) (.array bs)
  | union : ∀ as_ bs cs, as_.Perm bs → AVListEquiv bs cs →
      AVEquiv (.union as_) (.union cs)
  | generic : ∀ n a b, AVEquiv a b → AVEquiv (.generic n a) (.generic n b)

/-- Pointwise `AVEquiv` on lists of abstract values. -/
inductive AVListEquiv : List AV → List AV → Prop where
  | nil : AVListEquiv [] []
  | cons : ∀ a b as_ bs, AVEquiv a b → AVListEquiv as_ bs →
      AVListEquiv (a :: as_) (b :: bs)

/-- Pointwise `AVEquiv` on property lists; keys must agree exactly. -/
inductive AVPropsEquiv : List (String × AV) → List (String × AV) → Prop where
  | nil : AVPropsEquiv [] []
  | cons : ∀ k v w ps qs, AVEquiv v w → AVPropsEquiv ps qs →
      AVPropsEquiv ((k, v) :: ps) ((k, w) :: qs)

end

theorem AVListEquiv.of_refl (l : List AV) (h : ∀ x ∈ l, AVEquiv x x) :
    AVListEquiv l l := by
  induction l with
  | nil => exact .nil
  | cons a l ih =>
    exact .cons a a l l (h a (by simp)) (ih fun x hx => h x (by simp [hx]))

theorem AVPropsEquiv.of_refl_props (ps : List (String × AV))
    (h : ∀ p ∈ ps, AVEquiv p.2 p.2) : AVPropsEquiv ps ps := by
  induction ps with
  | nil => exact .nil
  | cons p ps ih =>
    obtain ⟨k, v⟩ := p
    exact .cons k v v ps ps (h (k, v) (by simp)) (ih fun x hx => h x (by simp [hx]))

theorem AVEquiv.refl_aux : ∀ (n : Nat) (a : AV), sizeOf a ≤ n → AVEquiv a a := by
  intro n
  induction n with
  | zero => intro a h; cases a <;> simp at h
  | succ n ih =>
    intro a h
    cases a with
    | undefined => exact .undefined
    | null => exact .null
    | boolean => exact .boolean
    | number => exact .number
    | string => exact .string
    | object ps =>
      refine .object ps ps (AVPropsEquiv.of_refl_props ps ?_)
      intro p hp
      have h1 : sizeOf p < sizeOf ps := List.sizeOf_lt_of_mem hp
      have h2 : sizeOf p.2 < sizeOf p := by obtain ⟨x, y⟩ := p; simp
      have hsz : sizeOf ps ≤ n := by simp at h; omega
      exact ih p.2 (by omega)
    | array as_ =>
      refine .array as_ as_ (AVListEquiv.of_refl as_ ?_)
      intro x hx
      have h1 : sizeOf x < sizeOf as_ := List.sizeOf_lt_of_mem hx
      have hsz : sizeOf as_ ≤ n := by simp at h; omega
      exact ih x (by omega)
    | union as_ =>
      refine .union as_ as_ as_ (List.Perm.refl as_) (AVListEquiv.of_refl as_ ?_)
      intro x hx
      have h1 : sizeOf x < sizeOf as_ := List.sizeOf_lt_of_mem hx
      have hsz : sizeOf as_ ≤ n := by simp at h; omega
      exact ih x (by omega)
    | generic s a =>
      have hsz : sizeOf a ≤ n := by simp at h; omega
      exact .generic s a a (ih a hsz)

theorem AVEquiv.refl (a : AV) : AVEquiv a a := AVEquiv.refl_aux (sizeOf a) a le_rfl

theorem merge_self (a : AV) : merge a a = a := by
  rw [merge.eq_def]; simp

theorem merge_undef_right (a : AV) : merge a .undefined = a := by
  rw [merge.eq_def]
  by_cases h : a = .undefined <;> simp [h]

theorem merge_undef_left (a : AV) : merge .undefined a = a := by
  rw [merge.eq_def]
  by_cases h : a = .undefined
  · simp [h]
  · simp [Ne.symm h]

theorem mem_collectListInto_of (vs : List AV)
    (h : ∀ v ∈ vs, ∀ acc x, x ∈ collectInto v acc ↔ x ∈ acc ∨ x ∈ collectInto v []) :
    ∀ acc x, x ∈ collectListInto vs acc ↔ x ∈ acc ∨ x ∈ collectListInto vs [] := by
  induction vs with
  | nil => intro acc x; simp [collectListInto]
  | cons v vs ih =>
    intro acc x
    have hv := h v (by simp)
    have hrest : ∀ w ∈ vs, ∀ acc x, x ∈ collectInto w acc ↔ x ∈ acc ∨ x ∈ collectInto w [] :=
      fun w hw => h w (by simp [hw])
    simp only [collectListInto]
    rw [ih hrest (collectInto v acc) x, hv acc x, ih hrest (collectInto v []) x]
    tauto

theorem mem_push (v : AV) (acc : List AV) (x : AV) :
    x ∈ (if v ∈ acc then acc else acc ++ [v]) ↔ x ∈ acc ∨ x = v := by
  by_cases hx : v ∈ acc
  · rw [if_pos hx]
    constructor
    · exact Or.inl
    · rintro (h | rfl)
      · exact h
      · exact hx
  · rw [if_neg hx]
    simp

theorem nodup_push (v : AV) (acc : List AV) (h : acc.Nodup) :
    (if v ∈ acc then acc else acc ++ [v]).Nodup := by
  by_cases hx : v ∈ acc
  · simpa [hx] using h
  · rw [if_neg hx]
    refine h.append (List.nodup_singleton v) ?_
    intro a ha hav
    simp at hav
    subst hav
    exact hx ha

theorem mem_collectInto_aux : ∀ (n : Nat) (v : AV), sizeOf v ≤ n →
    ∀ acc x, x ∈ collectInto v acc ↔ x ∈ acc ∨ x ∈ collectInto v [] := by
  intro n
  induction n with
  | zero => intro v h; cases v <;> simp at h
  | succ n ih =>
    intro v h acc x
    cases v
    case union vs =>
      have hsz : sizeOf vs ≤ n := by simp at h; omega
      have helt : ∀ w ∈ vs, ∀ acc x, x ∈ collectInto w acc ↔ x ∈ acc ∨ x ∈ collectInto w [] := by
        intro w hw
        have h1 : sizeOf w < sizeOf vs := List.sizeOf_lt_of_mem hw
        exact ih w (by omega)
      exact mem_collectListInto_of vs helt acc x
    all_goals simp only [collectInto]
    all_goals rw [mem_push]
    all_goals simp [mem_push]

theorem mem_collectInto (v : AV) (acc : List AV) (x : AV) :
    x ∈ collectInto v acc ↔ x ∈ acc ∨ x ∈ collectInto v [] :=
  mem_collectInto_aux (sizeOf v) v le_rfl acc x

theorem nodup_collectListInto_of (vs : List AV)
    (h : ∀ v ∈ vs, ∀ acc, acc.Nodup → (collectInto v acc).Nodup) :
    ∀ acc, acc.Nodup → (collectListInto vs acc).Nodup := by
  induction vs with
  | nil => intro acc hacc; simpa [collectListInto] using hacc
  | cons v vs ih =>
    intro acc hacc
    have hv := h v (by simp) acc hacc
    have hrest : ∀ w ∈ vs, ∀ acc, acc.Nodup → (collectInto w acc).Nodup :=
      fun w hw => h w (by simp [hw])
    simpa [collectListInto] using ih hrest (collectInto v acc) hv

theorem nodup_collectInto_aux : ∀ (n : Nat) (v : AV), sizeOf v ≤ n →
    ∀ acc, acc.Nodup → (collectInto v acc).Nodup := by
  intro n
  induction n with
  | zero => intro v h; cases v <;> simp at h
  | succ n ih =>
    intro v h acc hacc
    cases v
    case union vs =>
      have hsz : sizeOf vs ≤ n := by simp at h; omega
      have helt : ∀ w ∈ vs, ∀ acc, acc.Nodup → (collectInto w acc).Nodup := by
        intro w hw
        have h1 : sizeOf w < sizeOf vs := List.sizeOf_lt_of_mem hw
        exact ih w (by omega)
      exact nodup_collectListInto_of vs helt acc hacc
    all_goals simp only [collectInto]
    all_goals exact nodup_push _ _ hacc

theorem nodup_collectInto (v : AV) (acc : List AV) (hacc : acc.Nodup) :
    (collectInto v acc).Nodup :=
  nodup_collectInto_aux (sizeOf v) v le_rfl acc hacc

/-- The two-sided variant collection of `merge`'s default case is
order-symmetric up to permutation: collecting `a` then `b` yields a
permutation of collecting `b` then `a`. -/
theorem collect_pair_perm (a b : AV) :
    (collectInto b (collectInto a [])).Perm (collectInto a (collectInto b [])) := by
  rw [List.perm_ext_iff_of_nodup
    (nodup_collectInto b _ (nodup_collectInto a [] List.nodup_nil))
    (nodup_collectInto a _ (nodup_collectInto b [] List.nodup_nil))]
  intro x
  rw [mem_collectInto b _ x, mem_collectInto a _ x,
    mem_collectInto a (collectInto b []) x, mem_collectInto b [] x]
  simp
  tauto

theorem mkUnion_perm_equiv (l₁ l₂ : List AV) (hp : l₁.Perm l₂) :
    AVEquiv (mkUnion l₁) (mkUnion l₂) := by
  match l₁, l₂ with
  | [], l₂ =>
    rw [List.nil_perm] at hp
    subst hp
    exact AVEquiv.refl _
  | [x], l₂ =>
    rw [List.singleton_perm] at hp
    subst hp
    exact AVEquiv.refl _
  | x :: y :: l₁, [] => exact absurd hp.length_eq (by simp)
  | x :: y :: l₁, [z] => exact absurd hp.length_eq (by simp)
  | x :: y :: l₁, z :: w :: l₂ =>
    exact AVEquiv.union _ _ _ hp (AVListEquiv.of_refl _ fun v _ => AVEquiv.refl v)

/-- Reducing `merge` on two arrays that are not structurally equal. -/
theorem merge_array_array (as_ bs : List AV) (h : AV.array as_ ≠ AV.array bs) :
    merge (.array as_) (.array bs) = .array (mergeElems as_ bs) := by
  rw [merge.eq_def]
  simp [h]

/-- Reducing `merge` on two objects that are not structurally equal. -/
theorem merge_object_object (ps qs : List (String × AV)) (h : AV.object ps ≠ AV.object qs) :
    merge (.object ps) (.object qs) = .object (mergeProps ps qs) := by
  rw [merge.eq_def]
  simp [h]

/-- Whether both values are `Array`s (the guard of `merge`'s first
special case). -/
def bothArray : AV → AV → Bool
  | .array _, .array _ => true
  | _, _ => false

/-- Whether both values are `Object`s (the guard of `merge`'s second
special case). -/
def bothObject : AV → AV → Bool
  | .object _, .object _ => true
  | _, _ => false

/-- Reducing `merge` in its default (variant-collecting) case. -/
theorem merge_default (a b : AV) (hab : a ≠ b) (ha : a ≠ .undefined) (hb : b ≠ .undefined)
    (harr : bothArray a b = false) (hobj : bothObject a b = false) :
    merge a b = mkUnion (collectInto b (collectInto a [])) := by
  rw [merge.eq_def]
  rw [if_neg hab, if_neg ha, if_neg hb]
  cases a <;> cases b
  all_goals try rfl
  · exact absurd hobj (by simp [bothObject])
  · exact absurd harr (by simp [bothArray])

/-- Padding a non-empty array merge against the empty array is symmetric. -/
theorem mergeElems_nil_comm (bs : List AV) :
    AVListEquiv (mergeElems [] bs) (mergeElems bs []) ∧
      AVListEquiv (mergeElems bs []) (mergeElems [] bs) := by
  induction bs with
  | nil => constructor <;> (rw [mergeElems]; exact .nil)
  | cons b bs ih =>
    constructor
    · rw [mergeElems, mergeElems]
      exact .cons _ _ _ _ (by rw [merge_undef_left, merge_undef_right]; exact AVEquiv.refl b) ih.1
    · rw [mergeElems, mergeElems]
      exact .cons _ _ _ _ (by rw [merge_undef_left, merge_undef_right]; exact AVEquiv.refl b) ih.2

theorem mergeElems_comm_of : ∀ (as_ bs : List AV),
    (∀ x ∈ as_, ∀ y ∈ bs, AVEquiv (merge x y) (merge y x)) →
    AVListEquiv (mergeElems as_ bs) (mergeElems bs as_) := by
  intro as_
  induction as_ with
  | nil => intro bs _; exact (mergeElems_nil_comm bs).1
  | cons a as_ ih =>
    intro bs h
    cases bs with
    | nil => exact (mergeElems_nil_comm (a :: as_)).2
    | cons b bs =>
      rw [mergeElems, mergeElems]
      refine .cons _ _ _ _ (h a (by simp) b (by simp)) ?_
      exact ih bs fun x hx y hy => h x (by simp [hx]) y (by simp [hy])

theorem mergeProps_nil_left (qs : List (String × AV)) : mergeProps [] qs = qs := by
  rw [mergeProps]

theorem mergeProps_nil_right (qs : List (String × AV)) : mergeProps qs [] = qs := by
  cases qs with
  | nil => rw [mergeProps]
  | cons q qs =>
    rw [mergeProps]
    simp

theorem mergeProps_comm_of : ∀ (n : Nat) (ps qs : List (String × AV)),
    ps.length + qs.length ≤ n →
    (∀ p ∈ ps, ∀ q ∈ qs, AVEquiv (merge p.2 q.2) (merge q.2 p.2)) →
    AVPropsEquiv (mergeProps ps qs) (mergeProps qs ps) := by
  intro n
  induction n with
  | zero =>
    intro ps qs hn _
    have hps : ps = [] := by cases ps <;> simp_all
    have hqs : qs = [] := by cases qs <;> simp_all
    subst hps; subst hqs
    rw [mergeProps_nil_left]
    exact .nil
  | succ n ih =>
    intro ps qs hn h
    cases ps with
    | nil =>
      rw [mergeProps_nil_left, mergeProps_nil_right]
      exact AVPropsEquiv.of_refl_props qs fun p _ => AVEquiv.refl p.2
    | cons p ps =>
      cases qs with
      | nil =>
        rw [mergeProps_nil_left, mergeProps_nil_right]
        exact AVPropsEquiv.of_refl_props _ fun p _ => AVEquiv.refl p.2
      | cons q qs =>
        obtain ⟨k₁, v₁⟩ := p
        obtain ⟨k₂, v₂⟩ := q
        rcases lt_trichotomy k₁ k₂ with hlt | heq | hgt
        · rw [mergeProps, if_pos hlt, mergeProps, if_neg (lt_asymm hlt), if_pos hlt]
          refine .cons k₁ v₁ v₁ _ _ (AVEquiv.refl v₁) ?_
          refine ih ps ((k₂, v₂) :: qs) (by simp at hn ⊢; omega) ?_
          exact fun x hx y hy => h x (by simp [hx]) y hy
        · subst heq
          rw [mergeProps, if_neg (lt_irrefl k₁), if_neg (lt_irrefl k₁),
            mergeProps, if_neg (lt_irrefl k₁), if_neg (lt_irrefl k₁)]
          refine .cons k₁ _ _ _ _ (h (k₁, v₁) (by simp) (k₁, v₂) (by simp)) ?_
          refine ih ps qs (by simp at hn ⊢; omega) ?_
          exact fun x hx y hy => h x (by simp [hx]) y (by simp [hy])
        · rw [mergeProps, if_neg (lt_asymm hgt), if_pos hgt, mergeProps, if_pos hgt]
          refine .cons k₂ v₂ v₂ _ _ (AVEquiv.refl v₂) ?_
          refine ih ((k₁, v₁) :: ps) qs (by simp at hn ⊢; omega) ?_
          exact fun x hx y hy => h x hx y (by simp [hy])

theorem merge_comm_aux : ∀ (n : Nat) (a b : AV), sizeOf a + sizeOf b ≤ n →
    AVEquiv (merge a b) (merge b a) := by
  intro n
  induction n with
  | zero => intro a b h; cases a <;> simp at h
  | succ n ih =>
    intro a b hn
    by_cases hab : a = b
    · subst hab; exact AVEquiv.refl (merge a a)
    by_cases ha : a = .undefined
    · subst ha
      rw [merge_undef_left, merge_undef_right]
      exact AVEquiv.refl b
    by_cases hb : b = .undefined
    · subst hb
      rw [merge_undef_left, merge_undef_right]
      exact AVEquiv.refl a
    cases a <;> cases b
    all_goals first
      | exact absurd rfl hab
      | exact absurd rfl ha
      | exact absurd rfl hb
      | (rw [merge_default _ _ hab ha hb rfl rfl,
            merge_default _ _ (Ne.symm hab) hb ha rfl rfl]
         exact mkUnion_perm_equiv _ _ (collect_pair_perm _ _))
      | skip
    case _ ps qs =>
      rw [merge_object_object ps qs hab, merge_object_object qs ps (Ne.symm hab)]
      refine AVEquiv.object _ _ (mergeProps_comm_of (ps.length + qs.length) ps qs le_rfl ?_)
      intro p hp q hq
      have h1 : sizeOf p < sizeOf ps := List.sizeOf_lt_of_mem hp
      have h2 : sizeOf q < sizeOf qs := List.sizeOf_lt_of_mem hq
      have h3 : sizeOf p.2 < sizeOf p := by obtain ⟨x, y⟩ := p; simp
      have h4 : sizeOf q.2 < sizeOf q := by obtain ⟨x, y⟩ := q; simp
      have h5 : sizeOf (AV.object ps) = 1 + sizeOf ps := by simp
      have h6 : sizeOf (AV.object qs) = 1 + sizeOf qs := by simp
      exact ih p.2 q.2 (by omega)
    case _ as_ bs =>
      rw [merge_array_array as_ bs hab, merge_array_array bs as_ (Ne.symm hab)]
      refine AVEquiv.array _ _ (mergeElems_comm_of as_ bs ?_)
      intro x hx y hy
      have h1 : sizeOf x < sizeOf as_ := List.sizeOf_lt_of_mem hx
      have h2 : sizeOf y < sizeOf bs := List.sizeOf_lt_of_mem hy
      have h3 : sizeOf (AV.array as_) = 1 + sizeOf as_ := by simp
      have h4 : sizeOf (AV.array bs) = 1 + sizeOf bs := by simp
      exact ih x y (by omega)

/-- C1 counterexample: `merge` is neither commutative nor associative under
the structural equality of `AbstractValue`.  Commutativity already fails on
the variant order inside the resulting `Union` (`merge(Number, String)`
collects `Number` before `String`, `merge(String, Number)` the reverse —
under the Rust `HashSet` the order is not even deterministic), and
associativity fails outright: regrouping
`merge(merge(Array[Number], Array[String]), Boolean)` produces unions with
two variants versus three, so no reordering can reconcile them. -/
theorem C1_counterexample :
    merge .number .string ≠ merge .string .number ∧
    merge (merge (.array [.number]) (.array [.string])) .boolean ≠
      merge (.array [.number]) (merge (.array [.string]) .boolean) := by
  constructor
  · intro h
    simp [merge, collectInto, collectListInto, mkUnion] at h
  · intro h
    simp [merge, mergeElems, collectInto, collectListInto, mkUnion] at h

/-- C1 (amended): `merge` is commutative up to recursive reordering of
`Union` variant lists — `merge(a, b)` and `merge(b, a)` always agree
modulo permuting union members.  Associativity does not hold, not even up
to such reordering (see the counterexample, where the two groupings yield
unions with different variant sets). -/
theorem C1_merge_comm_up_to_union_order (a b : AV) :
    AVEquiv (merge a b) (merge b a) :=
  merge_comm_aux (sizeOf a + sizeOf b) a b le_rfl

/-- C2: `Undefined` is a left and right identity of `merge`, and `merge`
is idempotent, all under structural equality. -/
theorem C2_merge_identity_idempotence (a : AV) :
    merge a .undefined = a ∧ merge .undefined a = a ∧ merge a a = a :=
  ⟨merge_undef_right a, merge_undef_left a, merge_self a⟩

/-- `ASTNode` from `abst/src/ast.rs`.  `var` renders `ASTNode::Variable`
(`variable` is a Lean keyword).  `functionDecl` carries the `generics`
field consumed by the `FunctionDeclaration` arm of `interpret.rs` and
constructed by the crate's tests. -/
inductive ASTNode where
  | literal : AV → ASTNode
  | var : String → ASTNode
  | assignment : String → ASTNode → ASTNode
  | binaryOp : String → ASTNode → ASTNode → ASTNode
  | ifStatement : ASTNode → ASTNode → Option ASTNode → ASTNode
  | whileLoop : ASTNode → ASTNode → ASTNode
  | block : List ASTNode → ASTNode
  | functionDecl : String → List String → List (String × Option String) → ASTNode → ASTNode
  | functionCall : ASTNode → List ASTNode → ASTNode
  | arrayLiteral : List ASTNode → ASTNode
  | arrayIndex : ASTNode → ASTNode → ASTNode

/-- `Function` from `abst/src/types.rs`. -/
structure Function where
  params : List String
  generics : List (String × Option String)
  body : ASTNode

/-- Association-list lookup, modelling `HashMap::get`. -/
def lookupStr {α : Type} : List (String × α) → String → Option α
  | [], _ => none
  | (k, v) :: rest, key => if k = key then some v else lookupStr rest key

/-- Association-list insert-or-overwrite, modelling `HashMap::insert`. -/
def insertStr {α : Type} : List (String × α) → String → α → List (String × α)
  | [], k, v => [(k, v)]
  | (k', v') :: rest, k, v =>
    if k' = k then (k, v) :: rest else (k', v') :: insertStr rest k v

/-- `AbstractState` from `abst/src/types.rs`: the two `HashMap`s are kept
as association lists with unique keys (list order is the embedding's
determinization of hash-map iteration order). -/
structure AbstractState where
  vars : List (String × AV)
  funcs : List (String × Function)

/-- `AbstractState::new`. -/
def AbstractState.new : AbstractState := ⟨[], []⟩

/-- `AbstractState::assign`. -/
def AbstractState.assign (s : AbstractState) (name : String) (v : AV) : AbstractState :=
  { s with vars := insertStr s.vars name v }

/-- `AbstractState::get`. -/
def AbstractState.get (s : AbstractState) (name : String) : Option AV :=
  lookupStr s.vars name

/-- The `state.functions.insert` step of the `FunctionDeclaration` arm. -/
def AbstractState.declareFun (s : AbstractState) (name : String) (f : Function) :
    AbstractState :=
  { s with funcs := insertStr s.funcs name f }

/-- `AbstractState::merge` (`types.rs` lines 135-147): join every variable
of `other` into `self` (copying variables absent from `self`), then copy
every function of `other` over `self`'s. -/
def stateMerge (self other : AbstractState) : AbstractState :=
  { vars :=
      other.vars.foldl (fun acc kv =>
        match lookupStr acc kv.1 with
        | some existing => insertStr acc kv.1 (merge existing kv.2)
        | none => insertStr acc kv.1 kv.2) self.vars
    funcs :=
      other.funcs.foldl (fun acc kf => insertStr acc kf.1 kf.2) self.funcs }

/-- `merge_values` from `abst/src/interpret.rs`. -/
def merge_values (a b : AV) : AV := merge a b

/-- `abstract_add` (`interpret.rs` lines 234-240). -/
def abstract_add : AV → AV → AV
  | .number, .number => .number
  | .string, _ => .string
  | _, .string => .string
  | _, _ => .union [.number, .string]

/-- `abstract_subtract` (`interpret.rs` lines 242-248). -/
def abstract_subtract : AV → AV → AV
  | .number, .number => .number
  | _, _ => .undefined

/-- `abstract_multiply` (`interpret.rs` lines 250-256). -/
def abstract_multiply : AV → AV → AV
  | .number, .number => .number
  | _, _ => .undefined

/-- `abstract_divide` (`interpret.rs` lines 258-264). -/
def abstract_divide : AV → AV → AV
  | .number, .number => .number
  | _, _ => .undefined

/-- `abstract_equal` (`interpret.rs` lines 266-268). -/
def abstract_equal : AV → AV → AV
  | _, _ => .boolean

/-- `satisfies_constraint` (`interpret.rs` lines 275-283): the Rust `match`
on the constraint string tests the patterns in order. -/
def satisfies_constraint (v : AV) (c : String) : Bool :=
  if c = "Number" then (match v with | .number => true | _ => false)
  else if c = "String" then (match v with | .string => true | _ => false)
  else if c = "Boolean" then (match v with | .boolean => true | _ => false)
  else false

/-- The constraint test inside the generics loop: with a constraint tag
present, the call fails when `satisfies_constraint` rejects the argument
value; without a tag nothing is checked. -/
def constraintFails (c : Option String) (v : AV) : Bool :=
  match c with
  | some ctype => ! satisfies_constraint v ctype
  | none => false

/-- The operator dispatch of the `BinaryOp` arm (`interpret.rs` lines
53-59): unknown operator symbols yield `Undefined`. -/
def applyBinOp (op : String) (l r : AV) : AV :=
  if op = "+" then abstract_add l r
  else if op = "-" then abstract_subtract l r
  else if op = "*" then abstract_multiply l r
  else if op = "/" then abstract_divide l r
  else if op = "==" then abstract_equal l r
  else .undefined

/-- The element join of the `ArrayIndex` arm: fold `merge` over the
elements starting from `Undefined`. -/
def joinElems (elems : List AV) : AV :=
  elems.foldl (fun acc e => merge acc e) .undefined

/-- The `ArrayIndex` arm's dispatch on the array value's shape
(`interpret.rs` lines 207-228). -/
def elementType : AV → AV
  | .array elems => joinElems elems
  | .union variants =>
    variants.foldl (fun acc v =>
      match v with
      | .array elems => merge acc (joinElems elems)
      | _ => merge acc .undefined) .undefined
  | _ => .undefined

mutual

/-- `interpret` from `abst/src/interpret.rs`, with explicit state passing
in place of `&mut` and a fuel parameter that is consumed only when
entering a function body (the single recursion of the Rust code that is
not structural on the node).  `none` means fuel ran out; the totality
theorem shows a sufficient fuel bound always exists. -/
def interpretF : Nat → ASTNode → AbstractState → Option (AV × AbstractState)
  | _, .literal v, s => some (v, s)
  | _, .var name, s => some ((s.get name).getD .undefined, s)
  | fuel, .assignment target value, s =>
    match interpretF fuel value s with
    | none => none
    | some (v, s₁) => some (v, s₁.assign target v)
  | fuel, .binaryOp op l r, s =>
    match interpretF fuel l s with
    | none => none
    | some (lv, s₁) =>
      match interpretF fuel r s₁ with
      | none => none
      | some (rv, s₂) => some (applyBinOp op lv rv, s₂)
  | fuel, .ifStatement c t e, s =>
    match interpretF fuel c s with
    | none => none
    | some (_, s₀) =>
      match interpretF fuel t s₀ with
      | none => none
      | some (tv, thenS) =>
        match interpretOpt fuel e s₀ with
        | none => none
        | some (ev, elseS) =>
          some (merge tv ev, stateMerge (stateMerge s₀ thenS) elseS)
  | fuel, .whileLoop _ b, s =>
    match interpretF fuel b s with
    | none => none
    | some (_, loopS) => some (.undefined, stateMerge s loopS)
  | fuel, .block stmts, s => interpretSeq fuel stmts s .undefined
  | _, .functionDecl name params gens body, s =>
    some (.undefined, s.declareFun name ⟨params, gens, body⟩)
  | fuel, .functionCall fn args, s =>
    match fn with
    | .var fname =>
      match lookupStr s.funcs fname with
      | some func =>
        match evalBind fuel func.params args s AbstractState.new with
        | none => none
        | some (s₁, callee₁) =>
          match evalGenerics fuel func.generics args s₁ with
          | none => none
          | some (s₂, true) => some (.undefined, s₂)
          | some (s₂, false) =>
            match evalBind fuel func.params args s₂ callee₁ with
            | none => none
            | some (s₃, callee₂) =>
              if h : fuel = 0 then none
              else
                match interpretF (fuel - 1) func.body callee₂ with
                | none => none
                | some (res, _) => some (res, s₃)
      | none => some (.undefined, s)
    | _ => some (.undefined, s)
  | fuel, .arrayLiteral elems, s =>
    match interpretList fuel elems s with
    | none => none
    | some (vs, s₁) => some (.array vs, s₁)
  | fuel, .arrayIndex arr idx, s =>
    match interpretF fuel arr s with
    | none => none
    | some (av, s₁) =>
      match interpretF fuel idx s₁ with
      | none => none
      | some (iv, s₂) =>
        match iv with
        | .number => some (elementType av, s₂)
        | _ => some (.undefined, s₂)
termination_by fuel n s => (fuel, sizeOf n, 0)

/-- A missing `else` branch yields `Undefined` with no state effect. -/
def interpretOpt : Nat → Option ASTNode → AbstractState → Option (AV × AbstractState)
  | _, none, s => some (.undefined, s)
  | fuel, some eb, s => interpretF fuel eb s
termination_by fuel o s => (fuel, sizeOf o, 0)

/-- The `Block` arm's statement loop: evaluate each statement in order,
threading the state; the last statement's value is the result. -/
def interpretSeq : Nat → List ASTNode → AbstractState → AV → Option (AV × AbstractState)
  | _, [], s, r => some (r, s)
  | fuel, st :: sts, s, _ =>
    match interpretF fuel st s with
    | none => none
    | some (v, s₁) => interpretSeq fuel sts s₁ v
termination_by fuel stmts s r => (fuel, sizeOf stmts, 0)

/-- The `ArrayLiteral` arm's element loop. -/
def interpretList : Nat → List ASTNode → AbstractState → Option (List AV × AbstractState)
  | _, [], s => some ([], s)
  | fuel, el :: els, s =>
    match interpretF fuel el s with
    | none => none
    | some (v, s₁) =>
      match interpretList fuel els s₁ with
      | none => none
      | some (vs, s₂) => some (v :: vs, s₂)
termination_by fuel els s => (fuel, sizeOf els, 0)

/-- The parameter-binding loop of the `FunctionCall` arm (run twice by the
Rust code, at `interpret.rs` lines 149-152 and again at lines 175-178):
zip the formals with the argument expressions, evaluate each argument
against the caller's state, and assign it into the callee state. -/
def evalBind : Nat → List String → List ASTNode → AbstractState → AbstractState →
    Option (AbstractState × AbstractState)
  | _, [], _, caller, callee => some (caller, callee)
  | _, _ :: _, [], caller, callee => some (caller, callee)
  | fuel, p :: ps, a :: args, caller, callee =>
    match interpretF fuel a caller with
    | none => none
    | some (v, caller₁) => evalBind fuel ps args caller₁ (callee.assign p v)
termination_by fuel ps args caller callee => (fuel, sizeOf args, 0)

/-- The generics loop of the `FunctionCall` arm (`interpret.rs` lines
155-172): the Rust code enumerates the generics with an index `i` that
increments once per iteration and reads `arguments.get(i)`; here the
argument list is walked positionally alongside the generics, which is the
same access pattern.  For each generic position with a corresponding
argument, re-evaluate that argument against the caller's state and check
its constraint; a failed check returns with the Boolean flag set (the
Rust code returns `Undefined` at that point).  The `generic_mapping` the
Rust code builds alongside is dead after the loop and is not modelled. -/
def evalGenerics : Nat → List (String × Option String) → List ASTNode →
    AbstractState → Option (AbstractState × Bool)
  | _, [], _, s => some (s, false)
  | fuel, _ :: gens, [], s => evalGenerics fuel gens [] s
  | fuel, (_, c) :: gens, argn :: args, s =>
    match interpretF fuel argn s with
    | none => none
    | some (v, s₁) =>
      if constraintFails c v then some (s₁, true)
      else evalGenerics fuel gens args s₁
termination_by fuel gens args s => (fuel, sizeOf args, 1 + sizeOf gens)

end

/-- The §8 branching scenario: `x = Number; y = Number;
if (x == y) { w = String } else { w = Number }`. -/
def ifScenario : ASTNode :=
  .block [
    .assignment "x" (.literal .number),
    .assignment "y" (.literal .number),
    .ifStatement (.binaryOp "==" (.var "x") (.var "y"))
      (.assignment "w" (.literal .string))
      (some (.assignment "w" (.literal .number)))]

/-- The §8 loop scenario: `while (cond) { i = i + Number }` with `i`
initially unbound. -/
def whileScenario : ASTNode :=
  .whileLoop (.var "cond")
    (.assignment "i" (.binaryOp "+" (.var "i") (.literal .number)))

/-- The §8 constrained-generic scenario's function:
`add<T: Number>(a, b) { a + b }`. -/
def addFun : Function :=
  ⟨["a", "b"], [("T", some "Number")], .binaryOp "+" (.var "a") (.var "b")⟩

/-- C10: evaluating a `WhileLoop` never touches its condition: for any two
condition expressions the result and final state agree exactly, at every
fuel, so side effects inside a while condition never occur.  By contrast
an `IfStatement` condition is evaluated for its effects: the same
assignment used as an if condition binds the variable, while as a while
condition it does not. -/
theorem C10_while_ignores_condition :
    (∀ (fuel : Nat) (c₁ c₂ b : ASTNode) (s : AbstractState),
      interpretF fuel (.whileLoop c₁ b) s = interpretF fuel (.whileLoop c₂ b) s) ∧
    (interpretF 2 (.ifStatement (.assignment "a" (.literal .number)) (.literal .null) none)
        AbstractState.new).map (fun r => r.2.get "a") = some (some .number) ∧
    (interpretF 2 (.whileLoop (.assignment "a" (.literal .number)) (.literal .null))
        AbstractState.new).map (fun r => r.2.get "a") = some none := by
  refine ⟨fun fuel c₁ c₂ b s => ?_, ?_, ?_⟩
  · simp only [interpretF]
  · simp [interpretF, interpretOpt, AbstractState.get, AbstractState.assign,
      AbstractState.new, lookupStr, insertStr, stateMerge, merge]
  · simp [interpretF, AbstractState.get, AbstractState.assign, AbstractState.new,
      lookupStr, insertStr, stateMerge, merge]

/-- C6: the binary-operation transfer functions: `+` maps
`Number+Number` to `Number`, any `String` operand to `String`, and every
other pair to `Union[Number, String]`; `-`, `*`, `/` produce `Number`
exactly when both operands are `Number` and `Undefined` otherwise; `==`
always yields `Boolean`; an unknown operator symbol yields `Undefined`;
and the left operand is fully evaluated (with its state effects) before
the right. -/
theorem C6_binary_op_transfer :
    (abstract_add .number .number = .number) ∧
    (∀ a b : AV, a = .string ∨ b = .string → abstract_add a b = .string) ∧
    (∀ a b : AV, ¬(a = .number ∧ b = .number) → ¬(a = .string ∨ b = .string) →
      abstract_add a b = .union [.number, .string]) ∧
    (∀ a b : AV, abstract_subtract a b =
      if a = .number ∧ b = .number then .number else .undefined) ∧
    (∀ a b : AV, abstract_multiply a b =
      if a = .number ∧ b = .number then .number else .undefined) ∧
    (∀ a b : AV, abstract_divide a b =
      if a = .number ∧ b = .number then .number else .undefined) ∧
    (∀ a b : AV, abstract_equal a b = .boolean) ∧
    (∀ (op : String) (l r : AV), op ≠ "+" → op ≠ "-" → op ≠ "*" → op ≠ "/" →
      op ≠ "==" → applyBinOp op l r = .undefined) ∧
    (∀ (fuel : Nat) (op : String) (l r : ASTNode) (s : AbstractState) (lv : AV)
        (s₁ : AbstractState) (rv : AV) (s₂ : AbstractState),
      interpretF fuel l s = some (lv, s₁) →
      interpretF fuel r s₁ = some (rv, s₂) →
      interpretF fuel (.binaryOp op l r) s = some (applyBinOp op lv rv, s₂)) := by
  refine ⟨rfl, ?_, ?_, ?_, ?_, ?_, fun a b => rfl, ?_, ?_⟩
  · rintro a b (rfl | rfl)
    · cases b <;> rfl
    · cases a <;> rfl
  · intro a b h1 h2
    cases a <;> cases b <;> simp_all [abstract_add]
  · intro a b; cases a <;> cases b <;> simp [abstract_subtract]
  · intro a b; cases a <;> cases b <;> simp [abstract_multiply]
  · intro a b; cases a <;> cases b <;> simp [abstract_divide]
  · intro op l r h1 h2 h3 h4 h5
    simp [applyBinOp, h1, h2, h3, h4, h5]
  · intro fuel op l r s lv s₁ rv s₂ h1 h2
    simp only [interpretF, h1, h2]

/-- C6 witness: the hypothesis-bearing parts of `C6_binary_op_transfer`
instantiated at concrete operands and a concrete binary-operation node. -/
theorem C6_witness :
    abstract_add .string .null = .string ∧
    abstract_add .null .boolean = .union [.number, .string] ∧
    applyBinOp "^" .number .number = .undefined ∧
    interpretF 3 (.binaryOp "+" (.literal .number) (.literal .number)) AbstractState.new
      = some (applyBinOp "+" .number .number, AbstractState.new) := by
  have h := C6_binary_op_transfer
  refine ⟨h.2.1 _ _ (Or.inl rfl), h.2.2.1 _ _ (by simp) (by simp), ?_, ?_⟩
  · exact h.2.2.2.2.2.2.2.1 "^" _ _ (by decide) (by decide) (by decide) (by decide) (by decide)
  · exact h.2.2.2.2.2.2.2.2 3 "+" (.literal .number) (.literal .number)
      AbstractState.new .number AbstractState.new .number AbstractState.new
      (by simp [interpretF]) (by simp [interpretF])

/-- C4: an `IfStatement` evaluates its condition once purely for state
effects (the value is discarded), evaluates the branches against
independent copies of the post-condition state, merges both copies back
(then-copy first), and returns `merge(then_value, else_value)`, a missing
else branch contributing `Undefined`; on the §8 branching scenario the
final lookups give `w = Union[String, Number]` and `x = Number`. -/
theorem C4_if_statement_semantics :
    (∀ (fuel : Nat) (c t e : ASTNode) (s : AbstractState) (cv : AV)
        (s₀ : AbstractState) (tv : AV) (thenS : AbstractState) (ev : AV)
        (elseS : AbstractState),
      interpretF fuel c s = some (cv, s₀) →
      interpretF fuel t s₀ = some (tv, thenS) →
      interpretF fuel e s₀ = some (ev, elseS) →
      interpretF fuel (.ifStatement c t (some e)) s
        = some (merge tv ev, stateMerge (stateMerge s₀ thenS) elseS)) ∧
    (∀ (fuel : Nat) (c t : ASTNode) (s : AbstractState) (cv : AV)
        (s₀ : AbstractState) (tv : AV) (thenS : AbstractState),
      interpretF fuel c s = some (cv, s₀) →
      interpretF fuel t s₀ = some (tv, thenS) →
      interpretF fuel (.ifStatement c t none) s
        = some (merge tv .undefined, stateMerge (stateMerge s₀ thenS) s₀)) ∧
    (interpretF 10 ifScenario AbstractState.new).map
        (fun r => (r.2.get "w", r.2.get "x"))
      = some (some (.union [.string, .number]), some .number) := by
  refine ⟨?_, ?_, ?_⟩
  · intro fuel c t e s cv s₀ tv thenS ev elseS h1 h2 h3
    simp only [interpretF, interpretOpt, h1, h2, h3]
  · intro fuel c t s cv s₀ tv thenS h1 h2
    simp only [interpretF, interpretOpt, h1, h2]
  · simp [ifScenario, interpretF, interpretOpt, interpretSeq, applyBinOp,
      abstract_equal, AbstractState.get, AbstractState.assign, AbstractState.new,
      lookupStr, insertStr, stateMerge, merge, collectInto, collectListInto, mkUnion]

/-- C4 witness: the two conditional equations of
`C4_if_statement_semantics` instantiated at literal condition and
branches. -/
theorem C4_witness :
    interpretF 3 (.ifStatement (.literal .boolean) (.literal .string)
        (some (.literal .number))) AbstractState.new
      = some (merge .string .number,
          stateMerge (stateMerge AbstractState.new AbstractState.new) AbstractState.new) ∧
    interpretF 3 (.ifStatement (.literal .boolean) (.literal .string) none) AbstractState.new
      = some (merge .string .undefined,
          stateMerge (stateMerge AbstractState.new AbstractState.new) AbstractState.new) := by
  have h := C4_if_statement_semantics
  constructor
  · exact h.1 3 (.literal .boolean) (.literal .string) (.literal .number)
      AbstractState.new .boolean AbstractState.new .string AbstractState.new .number
      AbstractState.new (by simp [interpretF]) (by simp [interpretF]) (by simp [interpretF])
  · exact h.2.1 3 (.literal .boolean) (.literal .string)
      AbstractState.new .boolean AbstractState.new .string AbstractState.new
      (by simp [interpretF]) (by simp [interpretF])

/-- C5: a `WhileLoop` clones the state once, evaluates the body exactly
once against the clone, merges the clone back, and always returns
`Undefined`; on the §8 loop scenario with `i` initially unbound the final
`i` is `Union[Number, String]`. -/
theorem C5_while_loop_semantics :
    (∀ (fuel : Nat) (c b : ASTNode) (s : AbstractState) (bv : AV) (s₁ : AbstractState),
      interpretF fuel b s = some (bv, s₁) →
      interpretF fuel (.whileLoop c b) s = some (.undefined, stateMerge s s₁)) ∧
    (interpretF 10 whileScenario AbstractState.new).map (fun r => (r.1, r.2.get "i"))
      = some (.undefined, some (.union [.number, .string])) := by
  constructor
  · intro fuel c b s bv s₁ h
    simp only [interpretF, h]
  · simp [whileScenario, interpretF, applyBinOp, abstract_add, AbstractState.get,
      AbstractState.assign, AbstractState.new, lookupStr, insertStr, stateMerge,
      merge, collectInto, collectListInto, mkUnion]

/-- C5 witness: the loop equation of `C5_while_loop_semantics`
instantiated at a literal body. -/
theorem C5_witness :
    interpretF 3 (.whileLoop (.var "c") (.literal .null)) AbstractState.new
      = some (.undefined, stateMerge AbstractState.new AbstractState.new) := by
  have h := C5_while_loop_semantics
  exact h.1 3 (.var "c") (.literal .null) AbstractState.new .null AbstractState.new
    (by simp [interpretF])

/-- C7: a call to an undeclared name returns `Undefined` with the caller's
state untouched; a call whose generics pass reports a failed constraint
returns `Undefined` without evaluating the function body (the resulting
state comes from the argument passes alone and no fuel is consumed for
the body); a constraint tag is satisfied exactly when it is `"Number"`,
`"String"`, or `"Boolean"` and the argument value is that shape; and the
§8 scenario `add<T: Number>(String, Number)` returns `Undefined`. -/
theorem C7_call_failure_semantics :
    (∀ (fuel : Nat) (fname : String) (args : List ASTNode) (s : AbstractState),
      lookupStr s.funcs fname = none →
      interpretF fuel (.functionCall (.var fname) args) s = some (.undefined, s)) ∧
    (∀ (fuel : Nat) (fname : String) (args : List ASTNode) (s : AbstractState)
        (func : Function) (s₁ k₁ s₂ : AbstractState),
      lookupStr s.funcs fname = some func →
      evalBind fuel func.params args s AbstractState.new = some (s₁, k₁) →
      evalGenerics fuel func.generics args s₁ = some (s₂, true) →
      interpretF fuel (.functionCall (.var fname) args) s = some (.undefined, s₂)) ∧
    (∀ (v : AV) (c : String), satisfies_constraint v c = true ↔
      (c = "Number" ∧ v = .number) ∨ (c = "String" ∧ v = .string) ∨
      (c = "Boolean" ∧ v = .boolean)) ∧
    (interpretF 10 (.functionCall (.var "add") [.literal .string, .literal .number])
        ⟨[], [("add", addFun)]⟩).map (·.1) = some .undefined := by
  refine ⟨?_, ?_, ?_, ?_⟩
  · intro fuel fname args s h
    simp only [interpretF, h]
  · intro fuel fname args s func s₁ k₁ s₂ h0 h1 h2
    simp only [interpretF, h0, h1, h2]
  · intro v c
    by_cases h1 : c = "Number"
    · subst h1; cases v <;> simp [satisfies_constraint]
    · by_cases h2 : c = "String"
      · subst h2; cases v <;> simp [satisfies_constraint]
      · by_cases h3 : c = "Boolean"
        · subst h3; cases v <;> simp [satisfies_constraint]
        · simp [satisfies_constraint, h1, h2, h3]
  · simp [addFun, interpretF, evalBind, evalGenerics, constraintFails,
      satisfies_constraint, AbstractState.get, AbstractState.assign,
      AbstractState.new, lookupStr, insertStr]

/-- C7 witness: the two conditional call equations of
`C7_call_failure_semantics` instantiated at concrete calls. -/
theorem C7_witness :
    interpretF 3 (.functionCall (.var "nope") []) AbstractState.new
      = some (.undefined, AbstractState.new) ∧
    interpretF 3 (.functionCall (.var "add") [.literal .string, .literal .number])
        ⟨[], [("add", addFun)]⟩
      = some (.undefined, (⟨[], [("add", addFun)]⟩ : AbstractState)) := by
  have h := C7_call_failure_semantics
  constructor
  · exact h.1 3 "nope" [] AbstractState.new (by simp [AbstractState.new, lookupStr])
  · exact h.2.1 3 "add" [.literal .string, .literal .number] ⟨[], [("add", addFun)]⟩
      addFun ⟨[], [("add", addFun)]⟩
      (AbstractState.new.assign "a" .string |>.assign "b" .number)
      ⟨[], [("add", addFun)]⟩
      (by simp [addFun, lookupStr, insertStr])
      (by simp [addFun, evalBind, interpretF, AbstractState.new])
      (by simp [addFun, evalGenerics, interpretF, constraintFails, satisfies_constraint])

/-- C3 counterexample: arguments of a call to a declared function are not
evaluated exactly once.  With `a = Number` and `f(p)` declared with one
parameter and no generics, the call `f(a = [a])` leaves
`a = Array[Array[Number]]` — the self-wrapping argument ran twice (the
parameter-binding pass is performed both before and after the generics
pass), where a single evaluation would leave `Array[Number]`. -/
theorem C3_counterexample :
    (interpretF 10 (.functionCall (.var "f") [.assignment "a" (.arrayLiteral [.var "a"])])
        ⟨[("a", .number)], [("f", ⟨["p"], [], .literal .number⟩)]⟩).map
      (fun r => r.2.get "a")
      = some (some (.array [.array [.number]])) ∧
    some (AV.array [.array [.number]]) ≠ some (AV.array [.number]) := by
  constructor
  · simp [interpretF, interpretList, evalBind, evalGenerics, AbstractState.get,
      AbstractState.assign, AbstractState.new, lookupStr, insertStr]
  · decide

/-- C3 (amended): for a `FunctionCall` to a declared function the caller's
state is mutated only by the argument evaluations — one parameter-binding
pass over `zip(params, args)`, then the generics pass (one evaluation per
generic position with a corresponding argument), then a second
parameter-binding pass — each pass left-to-right; the body is then
evaluated in a callee state that carries only the parameter bindings and
an empty function table, and that callee state is discarded: the call
returns the body's value with the caller state from the argument passes
alone. -/
theorem C3_call_frame :
    (∀ (fuel : Nat) (fname : String) (args : List ASTNode) (s : AbstractState)
        (func : Function) (s₁ k₁ s₂ s₃ k₂ k₃ : AbstractState) (res : AV),
      lookupStr s.funcs fname = some func →
      evalBind fuel func.params args s AbstractState.new = some (s₁, k₁) →
      evalGenerics fuel func.generics args s₁ = some (s₂, false) →
      evalBind fuel func.params args s₂ k₁ = some (s₃, k₂) →
      fuel ≠ 0 →
      interpretF (fuel - 1) func.body k₂ = some (res, k₃) →
      interpretF fuel (.functionCall (.var fname) args) s = some (res, s₃)) ∧
    (∀ (fuel : Nat) (ps : List String) (args : List ASTNode)
        (caller callee : AbstractState) (r : AbstractState × AbstractState),
      evalBind fuel ps args caller callee = some r → r.2.funcs = callee.funcs) ∧
    AbstractState.new.funcs = [] := by
  refine ⟨?_, ?_, rfl⟩
  · intro fuel fname args s func s₁ k₁ s₂ s₃ k₂ k₃ res h0 h1 h2 h3 h4 h5
    simp only [interpretF, h0, h1, h2, h3, h4, h5, dite_false, if_neg]
  · intro fuel ps args caller callee r h
    induction ps generalizing args caller callee r with
    | nil => simp only [evalBind] at h; cases h; rfl
    | cons p ps ih =>
      cases args with
      | nil => simp only [evalBind] at h; cases h; rfl
      | cons a args =>
        simp only [evalBind] at h
        rcases h' : interpretF fuel a caller with _ | ⟨v, caller₁⟩ <;> rw [h'] at h
        · cases h
        · exact (ih args caller₁ _ r h).trans rfl

/-- C3 witness: the call equation of `C3_call_frame` instantiated at the
identity function applied to a number literal. -/
theorem C3_witness :
    interpretF 3 (.functionCall (.var "id") [.literal .number])
        ⟨[], [("id", ⟨["p"], [], .var "p"⟩)]⟩
      = some (.number, (⟨[], [("id", ⟨["p"], [], .var "p"⟩)]⟩ : AbstractState)) := by
  have h := C3_call_frame
  exact h.1 3 "id" [.literal .number] ⟨[], [("id", ⟨["p"], [], .var "p"⟩)]⟩
    ⟨["p"], [], .var "p"⟩
    ⟨[], [("id", ⟨["p"], [], .var "p"⟩)]⟩
    (AbstractState.new.assign "p" .number)
    ⟨[], [("id", ⟨["p"], [], .var "p"⟩)]⟩
    ⟨[], [("id", ⟨["p"], [], .var "p"⟩)]⟩
    (AbstractState.new.assign "p" .number)
    (AbstractState.new.assign "p" .number)
    .number
    (by simp [lookupStr])
    (by simp [evalBind, interpretF, AbstractState.new])
    (by simp [evalGenerics])
    (by simp [evalBind, interpretF, AbstractState.new, AbstractState.assign, insertStr])
    (by decide)
    (by simp [interpretF, AbstractState.get, AbstractState.assign, AbstractState.new,
      lookupStr, insertStr])

/-! Totality of the interpreter.  The only recursion of `interpret` that
is not structural on the AST is the call into a function body looked up
in the state.  The development below shows a concrete fuel bound always
suffices: the weight of a node (arguments of a call counted once per
evaluation pass) plus the total weight of the function bodies stored in
the state. -/

mutual

/-- Evaluation weight of a node: like a size, but the arguments of a
`functionCall` are counted three times, once per argument-evaluation pass
of the `FunctionCall` arm. -/
def nweight : ASTNode → Nat
  | .literal _ => 1
  | .var _ => 1
  | .assignment _ v => 1 + nweight v
  | .binaryOp _ l r => 1 + nweight l + nweight r
  | .ifStatement c t e => 1 + nweight c + nweight t + nweightOpt e
  | .whileLoop c b => 1 + nweight c + nweight b
  | .block stmts => 1 + nweightList stmts
  | .functionDecl _ _ _ body => 1 + nweight body
  | .functionCall f args => 1 + nweight f + 3 * nweightList args
  | .arrayLiteral els => 1 + nweightList els
  | .arrayIndex a i => 1 + nweight a + nweight i

/-- Weight of an optional else-branch. -/
def nweightOpt : Option ASTNode → Nat
  | none => 0
  | some e => nweight e

/-- Total weight of a node list. -/
def nweightList : List ASTNode → Nat
  | [] => 0
  | n :: ns => nweight n + nweightList ns

end

/-- Weight of a stored function: its body's weight plus one. -/
def funcWeight (f : Function) : Nat := nweight f.body + 1

/-- Total weight of a function table. -/
def fw (l : List (String × Function)) : Nat :=
  (l.map (fun e => funcWeight e.2)).sum

mutual

/-- The function entries that evaluating a node can insert into the
state: the declarations at evaluable positions (not descending into
declaration bodies, which are only evaluated via calls in a fresh state,
nor into while-loop conditions or call targets, which are never
evaluated). -/
def declFuns : ASTNode → List (String × Function)
  | .literal _ => []
  | .var _ => []
  | .assignment _ v => declFuns v
  | .binaryOp _ l r => declFuns l ++ declFuns r
  | .ifStatement c t e => declFuns c ++ declFuns t ++ declFunsOpt e
  | .whileLoop _ b => declFuns b
  | .block stmts => declFunsList stmts
  | .functionDecl name params gens body => [(name, ⟨params, gens, body⟩)]
  | .functionCall _ args => declFunsList args
  | .arrayLiteral els => declFunsList els
  | .arrayIndex a i => declFuns a ++ declFuns i

/-- Declarations of an optional else-branch. -/
def declFunsOpt : Option ASTNode → List (String × Function)
  | none => []
  | some e => declFuns e

/-- Declarations of a node list. -/
def declFunsList : List ASTNode → List (String × Function)
  | [] => []
  | n :: ns => declFuns n ++ declFunsList ns

end

/-- The function table has duplicate-free names. -/
def KN (s : AbstractState) : Prop := (s.funcs.map Prod.fst).Nodup

theorem fw_append (a b : List (String × Function)) : fw (a ++ b) = fw a + fw b := by
  simp [fw]

theorem nweight_pos : ∀ n : ASTNode, 1 ≤ nweight n := by
  intro n
  cases n <;> simp [nweight] <;> omega

theorem dwList_le_of (ls : List ASTNode) (h : ∀ x ∈ ls, fw (declFuns x) ≤ nweight x) :
    fw (declFunsList ls) ≤ nweightList ls := by
  induction ls with
  | nil => simp [declFunsList, nweightList, fw]
  | cons x ls ih =>
    rw [declFunsList, nweightList, fw_append]
    have h1 := h x (by simp)
    have h2 := ih fun y hy => h y (by simp [hy])
    omega

theorem dw_le_aux : ∀ (κ : Nat) (n : ASTNode), sizeOf n ≤ κ →
    fw (declFuns n) ≤ nweight n := by
  intro κ
  induction κ with
  | zero => intro n h; cases n <;> simp at h
  | succ κ ih =>
    intro n h
    cases n with
    | literal v => simp [declFuns, nweight, fw]
    | var name => simp [declFuns, nweight, fw]
    | assignment t v =>
      have := ih v (by simp at h; omega)
      rw [declFuns, nweight]
      omega
    | binaryOp op l r =>
      have h1 := ih l (by simp at h; omega)
      have h2 := ih r (by simp at h; omega)
      rw [declFuns, nweight, fw_append]
      omega
    | ifStatement c t e =>
      have h1 := ih c (by simp at h; omega)
      have h2 := ih t (by simp at h; omega)
      have h3 : fw (declFunsOpt e) ≤ nweightOpt e := by
        match e with
        | none => simp [declFunsOpt, nweightOpt, fw]
        | some eb =>
          have : sizeOf eb ≤ κ := by simp at h; omega
          rw [declFunsOpt, nweightOpt]
          exact ih eb this
      rw [declFuns, nweight, fw_append, fw_append]
      omega
    | whileLoop c b =>
      have := ih b (by simp at h; omega)
      rw [declFuns, nweight]
      omega
    | block stmts =>
      have : fw (declFunsList stmts) ≤ nweightList stmts := by
        refine dwList_le_of stmts fun x hx => ih x ?_
        have h1 : sizeOf x < sizeOf stmts := List.sizeOf_lt_of_mem hx
        simp at h
        omega
      rw [declFuns, nweight]
      omega
    | functionDecl name params gens body =>
      simp [declFuns, nweight, fw, funcWeight]
      omega
    | functionCall f args =>
      have : fw (declFunsList args) ≤ nweightList args := by
        refine dwList_le_of args fun x hx => ih x ?_
        have h1 : sizeOf x < sizeOf args := List.sizeOf_lt_of_mem hx
        simp at h
        omega
      rw [declFuns, nweight]
      omega
    | arrayLiteral els =>
      have : fw (declFunsList els) ≤ nweightList els := by
        refine dwList_le_of els fun x hx => ih x ?_
        have h1 : sizeOf x < sizeOf els := List.sizeOf_lt_of_mem hx
        simp at h
        omega
      rw [declFuns, nweight]
      omega
    | arrayIndex a i =>
      have h1 := ih a (by simp at h; omega)
      have h2 := ih i (by simp at h; omega)
      rw [declFuns, nweight, fw_append]
      omega

theorem dw_le (n : ASTNode) : fw (declFuns n) ≤ nweight n :=
  dw_le_aux (sizeOf n) n le_rfl

theorem dwList_le (ls : List ASTNode) : fw (declFunsList ls) ≤ nweightList ls :=
  dwList_le_of ls fun x _ => dw_le x

theorem lookupStr_fw (l : List (String × Function)) (k : String) (f : Function)
    (h : lookupStr l k = some f) : funcWeight f ≤ fw l := by
  induction l with
  | nil => simp [lookupStr] at h
  | cons e l ih =>
    obtain ⟨k', f'⟩ := e
    by_cases hk : k' = k
    · subst hk
      simp [lookupStr] at h
      subst h
      simp [fw]
    · simp [lookupStr, hk] at h
      have := ih h
      simp [fw] at this ⊢
      omega

theorem mem_insertStr {α : Type} (l : List (String × α)) (k : String) (v : α)
    (e : String × α) (h : e ∈ insertStr l k v) : e ∈ l ∨ e = (k, v) := by
  induction l with
  | nil => simp [insertStr] at h; simp [h]
  | cons e' l ih =>
    obtain ⟨k', v'⟩ := e'
    by_cases hk : k' = k
    · subst hk
      simp [insertStr] at h
      rcases h with h | h
      · exact Or.inr h
      · exact Or.inl (by simp [h])
    · simp [insertStr, hk] at h
      rcases h with h | h
      · exact Or.inl (by simp [h])
      · rcases ih h with h2 | h2
        · exact Or.inl (by simp [h2])
        · exact Or.inr h2

theorem mem_keys_insertStr {α : Type} (l : List (String × α)) (k : String) (v : α)
    (x : String) (h : x ∈ (insertStr l k v).map Prod.fst) :
    x ∈ l.map Prod.fst ∨ x = k := by
  rcases List.mem_map.mp h with ⟨e, he, hx⟩
  rcases mem_insertStr l k v e he with h2 | h2
  · exact Or.inl (List.mem_map.mpr ⟨e, h2, hx⟩)
  · subst h2
    exact Or.inr hx.symm

theorem nodup_insertStr {α : Type} (l : List (String × α)) (k : String) (v : α)
    (h : (l.map Prod.fst).Nodup) : ((insertStr l k v).map Prod.fst).Nodup := by
  induction l with
  | nil => simp [insertStr]
  | cons e l ih =>
    obtain ⟨k', v'⟩ := e
    rw [List.map_cons, List.nodup_cons] at h
    by_cases hk : k' = k
    · subst hk
      have he : insertStr ((k', v') :: l) k' v = (k', v) :: l := by
        simp [insertStr]
      rw [he, List.map_cons, List.nodup_cons]
      exact h
    · simp only [insertStr, if_neg hk, List.map_cons, List.nodup_cons]
      refine ⟨fun hm => ?_, ih h.2⟩
      rcases mem_keys_insertStr l k v k' hm with h2 | h2
      · exact h.1 h2
      · exact hk h2

theorem fw_insertStr (l : List (String × Function)) (k : String) (f : Function) :
    fw (insertStr l k f) ≤ fw l + funcWeight f := by
  induction l with
  | nil => simp [insertStr, fw]
  | cons e l ih =>
    obtain ⟨k', f'⟩ := e
    by_cases hk : k' = k
    · subst hk
      have he : insertStr ((k', f') :: l) k' f = (k', f) :: l := by
        simp [insertStr]
      rw [he]
      simp [fw]
      omega
    · simp only [insertStr, if_neg hk]
      simp [fw] at ih ⊢
      omega

theorem mem_foldl_insertStr :
    ∀ (l acc : List (String × Function)) (e : String × Function),
      e ∈ l.foldl (fun acc kf => insertStr acc kf.1 kf.2) acc → e ∈ acc ∨ e ∈ l := by
  intro l
  induction l with
  | nil => intro acc e h; exact Or.inl h
  | cons kf l ih =>
    intro acc e h
    rcases ih _ _ h with h2 | h2
    · rcases mem_insertStr _ _ _ _ h2 with h3 | h3
      · exact Or.inl h3
      · right
        rw [h3]
        simp
    · exact Or.inr (List.mem_cons_of_mem _ h2)

theorem nodup_foldl_insertStr :
    ∀ (l acc : List (String × Function)), (acc.map Prod.fst).Nodup →
      ((l.foldl (fun acc kf => insertStr acc kf.1 kf.2) acc).map Prod.fst).Nodup := by
  intro l
  induction l with
  | nil => intro acc h; exact h
  | cons kf l ih => intro acc h; exact ih _ (nodup_insertStr _ _ _ h)

theorem stateMerge_funcs (s o : AbstractState) :
    (stateMerge s o).funcs =
      o.funcs.foldl (fun acc kf => insertStr acc kf.1 kf.2) s.funcs := rfl

theorem mem_stateMerge_funcs (s o : AbstractState) (e : String × Function)
    (h : e ∈ (stateMerge s o).funcs) : e ∈ s.funcs ∨ e ∈ o.funcs :=
  mem_foldl_insertStr _ _ _ (by rw [← stateMerge_funcs]; exact h)

theorem KN_stateMerge (s o : AbstractState) (h : KN s) : KN (stateMerge s o) :=
  nodup_foldl_insertStr _ _ h

theorem assign_funcs (s : AbstractState) (k : String) (v : AV) :
    (s.assign k v).funcs = s.funcs := rfl

theorem declareFun_funcs (s : AbstractState) (k : String) (f : Function) :
    (s.declareFun k f).funcs = insertStr s.funcs k f := rfl

theorem evalGenerics_nil_args :
    ∀ (fuel : Nat) (gens : List (String × Option String)) (s : AbstractState),
      evalGenerics fuel gens [] s = some (s, false) := by
  intro fuel gens
  induction gens with
  | nil => intro s; simp [evalGenerics]
  | cons g gens ih =>
    intro s
    obtain ⟨gn, gc⟩ := g
    simp only [evalGenerics]
    exact ih s

theorem fw_le_of_origin (A B : List (String × Function)) :
    ∀ l : List (String × Function), (l.map Prod.fst).Nodup →
      (∀ e ∈ l, e ∈ A ∨ e ∈ B) → fw l ≤ fw A + fw B := by
  intro l hnd hmem
  have hnd2 : l.Nodup := List.Nodup.of_map _ hnd
  have hsub : l ⊆ A ++ B := by
    intro e he
    rcases hmem e he with h | h
    · exact List.mem_append.mpr (Or.inl h)
    · exact List.mem_append.mpr (Or.inr h)
  have hsp : List.Subperm l (A ++ B) := hnd2.subperm hsub
  obtain ⟨m, hperm, hsl⟩ := hsp
  have h1 : fw l = fw m := by
    rw [fw, fw]
    exact (List.Perm.sum_eq (hperm.map _)).symm
  have h2 : fw m ≤ fw (A ++ B) := by
    rw [fw, fw]
    exact List.Sublist.sum_le_sum (hsl.map _) (fun x _ => Nat.zero_le x)
  rw [h1, fw_append] at *
  omega

/-- Origin of function-table entries: every function entry present after
evaluating a node was either already in the starting state or is one of
the declarations syntactically reachable at an evaluable position of the
node, and duplicate-freeness of function names is preserved.  Joint
statement over the six mutually recursive interpreter functions, by
strong induction on the size of the syntactic argument (the call into a
function body needs no inductive step: the callee's final state is
discarded). -/
theorem interp_origin : ∀ κ : Nat,
    (∀ (fuel : Nat) (n : ASTNode) (s : AbstractState) (v : AV) (s' : AbstractState),
      sizeOf n ≤ κ → interpretF fuel n s = some (v, s') →
      (∀ e ∈ s'.funcs, e ∈ s.funcs ∨ e ∈ declFuns n) ∧ (KN s → KN s')) ∧
    (∀ (fuel : Nat) (o : Option ASTNode) (s : AbstractState) (v : AV) (s' : AbstractState),
      sizeOf o ≤ κ → interpretOpt fuel o s = some (v, s') →
      (∀ e ∈ s'.funcs, e ∈ s.funcs ∨ e ∈ declFunsOpt o) ∧ (KN s → KN s')) ∧
    (∀ (fuel : Nat) (sts : List ASTNode) (s : AbstractState) (r v : AV) (s' : AbstractState),
      sizeOf sts ≤ κ → interpretSeq fuel sts s r = some (v, s') →
      (∀ e ∈ s'.funcs, e ∈ s.funcs ∨ e ∈ declFunsList sts) ∧ (KN s → KN s')) ∧
    (∀ (fuel : Nat) (els : List ASTNode) (s : AbstractState) (vs : List AV) (s' : AbstractState),
      sizeOf els ≤ κ → interpretList fuel els s = some (vs, s') →
      (∀ e ∈ s'.funcs, e ∈ s.funcs ∨ e ∈ declFunsList els) ∧ (KN s → KN s')) ∧
    (∀ (fuel : Nat) (ps : List String) (args : List ASTNode) (caller callee c' d' : AbstractState),
      sizeOf args ≤ κ → evalBind fuel ps args caller callee = some (c', d') →
      (∀ e ∈ c'.funcs, e ∈ caller.funcs ∨ e ∈ declFunsList args) ∧ (KN caller → KN c')) ∧
    (∀ (fuel : Nat) (gens : List (String × Option String)) (args : List ASTNode)
        (s s' : AbstractState) (b : Bool),
      sizeOf args ≤ κ → evalGenerics fuel gens args s = some (s', b) →
      (∀ e ∈ s'.funcs, e ∈ s.funcs ∨ e ∈ declFunsList args) ∧ (KN s → KN s')) := by
  intro κ
  induction κ with
  | zero =>
    refine ⟨?_, ?_, ?_, ?_, ?_, ?_⟩
    · intro fuel n s v s' hsz h; cases n <;> simp at hsz
    · intro fuel o s v s' hsz h; cases o <;> simp at hsz
    · intro fuel sts s r v s' hsz h; cases sts <;> simp at hsz
    · intro fuel els s vs s' hsz h; cases els <;> simp at hsz
    · intro fuel ps args caller callee c' d' hsz h; cases args <;> simp at hsz
    · intro fuel gens args s s' b hsz h; cases args <;> simp at hsz
  | succ κ ih =>
    refine ⟨?_, ?_, ?_, ?_, ?_, ?_⟩
    · -- interpretF
      intro fuel n s v s' hsz h
      cases n with
      | literal lv =>
        simp [interpretF] at h
        obtain ⟨h1, h2⟩ := h
        subst h1; subst h2
        exact ⟨fun x hx => Or.inl hx, fun k => k⟩
      | var name =>
        simp [interpretF] at h
        obtain ⟨h1, h2⟩ := h
        subst h2
        exact ⟨fun x hx => Or.inl hx, fun k => k⟩
      | assignment t value =>
        simp only [interpretF] at h
        cases hv : interpretF fuel value s with
        | none => rw [hv] at h; simp at h
        | some p =>
          obtain ⟨v₁, s₁⟩ := p
          rw [hv] at h
          simp at h
          obtain ⟨h1, h2⟩ := h
          subst h1; subst h2
          have H := ih.1 fuel value s v₁ s₁ (by simp at hsz; omega) hv
          refine ⟨fun x hx => ?_, fun hk => H.2 hk⟩
          rw [assign_funcs] at hx
          rcases H.1 x hx with h3 | h3
          · exact Or.inl h3
          · right; simpa [declFuns] using h3
      | binaryOp op l r =>
        simp only [interpretF] at h
        cases hl : interpretF fuel l s with
        | none => rw [hl] at h; simp at h
        | some p =>
          obtain ⟨lv, s₁⟩ := p
          rw [hl] at h
          simp at h
          cases hr : interpretF fuel r s₁ with
          | none => rw [hr] at h; simp at h
          | some q =>
            obtain ⟨rv, s₂⟩ := q
            rw [hr] at h
            simp at h
            obtain ⟨h1, h2⟩ := h
            subst h1; subst h2
            have H1 := ih.1 fuel l s lv s₁ (by simp at hsz; omega) hl
            have H2 := ih.1 fuel r s₁ rv s₂ (by simp at hsz; omega) hr
            refine ⟨fun x hx => ?_, fun hk => H2.2 (H1.2 hk)⟩
            rcases H2.1 x hx with h3 | h3
            · rcases H1.1 x h3 with h4 | h4
              · exact Or.inl h4
              · right; simp only [declFuns, List.mem_append]; exact Or.inl h4
            · right; simp only [declFuns, List.mem_append]; exact Or.inr h3
      | ifStatement c t e =>
        simp only [interpretF] at h
        cases hc : interpretF fuel c s with
        | none => rw [hc] at h; simp at h
        | some p =>
          obtain ⟨cv, s₀⟩ := p
          rw [hc] at h
          simp at h
          cases ht : interpretF fuel t s₀ with
          | none => rw [ht] at h; simp at h
          | some q =>
            obtain ⟨tv, thenS⟩ := q
            rw [ht] at h
            simp at h
            cases he2 : interpretOpt fuel e s₀ with
            | none => rw [he2] at h; simp at h
            | some w =>
              obtain ⟨ev, elseS⟩ := w
              rw [he2] at h
              simp at h
              obtain ⟨h1, h2⟩ := h
              subst h1; subst h2
              have Hc := ih.1 fuel c s cv s₀ (by simp at hsz; omega) hc
              have Ht := ih.1 fuel t s₀ tv thenS (by simp at hsz; omega) ht
              have He := ih.2.1 fuel e s₀ ev elseS (by simp at hsz; omega) he2
              refine ⟨fun x hx => ?_,
                fun hk => KN_stateMerge _ _ (KN_stateMerge _ _ (Hc.2 hk))⟩
              rcases mem_stateMerge_funcs _ _ _ hx with h3 | h3
              · rcases mem_stateMerge_funcs _ _ _ h3 with h4 | h4
                · rcases Hc.1 x h4 with h5 | h5
                  · exact Or.inl h5
                  · right; simp only [declFuns, List.mem_append]
                    exact Or.inl (Or.inl h5)
                · rcases Ht.1 x h4 with h5 | h5
                  · rcases Hc.1 x h5 with h6 | h6
                    · exact Or.inl h6
                    · right; simp only [declFuns, List.mem_append]
                      exact Or.inl (Or.inl h6)
                  · right; simp only [declFuns, List.mem_append]
                    exact Or.inl (Or.inr h5)
              · rcases He.1 x h3 with h5 | h5
                · rcases Hc.1 x h5 with h6 | h6
                  · exact Or.inl h6
                  · right; simp only [declFuns, List.mem_append]
                    exact Or.inl (Or.inl h6)
                · right; simp only [declFuns, List.mem_append]
                  exact Or.inr h5
      | whileLoop c b =>
        simp only [interpretF] at h
        cases hb : interpretF fuel b s with
        | none => rw [hb] at h; simp at h
        | some p =>
          obtain ⟨bv, loopS⟩ := p
          rw [hb] at h
          simp at h
          obtain ⟨h1, h2⟩ := h
          subst h1; subst h2
          have Hb := ih.1 fuel b s bv loopS (by simp at hsz; omega) hb
          refine ⟨fun x hx => ?_, fun hk => KN_stateMerge _ _ hk⟩
          rcases mem_stateMerge_funcs _ _ _ hx with h3 | h3
          · exact Or.inl h3
          · rcases Hb.1 x h3 with h4 | h4
            · exact Or.inl h4
            · right; simpa [declFuns] using h4
      | block stmts =>
        simp only [interpretF] at h
        have H := ih.2.2.1 fuel stmts s .undefined v s' (by simp at hsz; omega) h
        refine ⟨fun x hx => ?_, H.2⟩
        rcases H.1 x hx with h3 | h3
        · exact Or.inl h3
        · right; simpa [declFuns] using h3
      | functionDecl name params gens body =>
        simp [interpretF] at h
        obtain ⟨h1, h2⟩ := h
        subst h1; subst h2
        refine ⟨fun x hx => ?_, fun hk => nodup_insertStr _ _ _ hk⟩
        rw [declareFun_funcs] at hx
        rcases mem_insertStr _ _ _ _ hx with h3 | h3
        · exact Or.inl h3
        · right; simp [declFuns]; exact h3
      | functionCall fn args =>
        cases fn
        case var fname =>
          simp only [interpretF] at h
          cases hlk : lookupStr s.funcs fname with
          | none =>
            rw [hlk] at h
            simp at h
            obtain ⟨h1, h2⟩ := h
            subst h1; subst h2
            exact ⟨fun x hx => Or.inl hx, fun k => k⟩
          | some func =>
            rw [hlk] at h
            simp at h
            cases hb1 : evalBind fuel func.params args s AbstractState.new with
            | none => rw [hb1] at h; simp at h
            | some p1 =>
              obtain ⟨s₁, callee₁⟩ := p1
              rw [hb1] at h
              simp at h
              cases hg : evalGenerics fuel func.generics args s₁ with
              | none => rw [hg] at h; simp at h
              | some p2 =>
                obtain ⟨s₂, flag⟩ := p2
                rw [hg] at h
                have hargs : sizeOf args ≤ κ := by simp at hsz; omega
                have HB1 := ih.2.2.2.2.1 fuel func.params args s
                  AbstractState.new s₁ callee₁ hargs hb1
                cases flag with
                | true =>
                  simp at h
                  obtain ⟨h1, h2⟩ := h
                  subst h1; subst h2
                  have HG := ih.2.2.2.2.2 fuel func.generics args s₁ s₂ true hargs hg
                  refine ⟨fun x hx => ?_, fun hk => HG.2 (HB1.2 hk)⟩
                  rcases HG.1 x hx with h3 | h3
                  · rcases HB1.1 x h3 with h4 | h4
                    · exact Or.inl h4
                    · right; simpa [declFuns] using h4
                  · right; simpa [declFuns] using h3
                | false =>
                  simp at h
                  have HG := ih.2.2.2.2.2 fuel func.generics args s₁ s₂ false hargs hg
                  cases hb2 : evalBind fuel func.params args s₂ callee₁ with
                  | none => rw [hb2] at h; simp at h
                  | some p3 =>
                    obtain ⟨s₃, callee₂⟩ := p3
                    rw [hb2] at h
                    have HB2 := ih.2.2.2.2.1 fuel func.params args s₂
                      callee₁ s₃ callee₂ hargs hb2
                    by_cases hf : fuel = 0
                    · simp [hf] at h
                    · simp [hf] at h
                      cases hbody : interpretF (fuel - 1) func.body callee₂ with
                      | none => rw [hbody] at h; simp at h
                      | some pr =>
                        obtain ⟨res, deadS⟩ := pr
                        rw [hbody] at h
                        simp at h
                        obtain ⟨h1, h2⟩ := h
                        subst h1; subst h2
                        refine ⟨fun x hx => ?_, fun hk => HB2.2 (HG.2 (HB1.2 hk))⟩
                        rcases HB2.1 x hx with h3 | h3
                        · rcases HG.1 x h3 with h4 | h4
                          · rcases HB1.1 x h4 with h5 | h5
                            · exact Or.inl h5
                            · right; simpa [declFuns] using h5
                          · right; simpa [declFuns] using h4
                        · right; simpa [declFuns] using h3
        all_goals
          simp [interpretF] at h
          obtain ⟨h1, h2⟩ := h
          subst h1; subst h2
          exact ⟨fun x hx => Or.inl hx, fun k => k⟩
      | arrayLiteral els =>
        simp only [interpretF] at h
        cases hl : interpretList fuel els s with
        | none => rw [hl] at h; simp at h
        | some p =>
          obtain ⟨vs, s₁⟩ := p
          rw [hl] at h
          simp at h
          obtain ⟨h1, h2⟩ := h
          subst h1; subst h2
          have H := ih.2.2.2.1 fuel els s vs s₁ (by simp at hsz; omega) hl
          refine ⟨fun x hx => ?_, H.2⟩
          rcases H.1 x hx with h3 | h3
          · exact Or.inl h3
          · right; simpa [declFuns] using h3
      | arrayIndex a i =>
        simp only [interpretF] at h
        cases ha : interpretF fuel a s with
        | none => rw [ha] at h; simp at h
        | some p =>
          obtain ⟨av, s₁⟩ := p
          rw [ha] at h
          simp at h
          cases hi : interpretF fuel i s₁ with
          | none => rw [hi] at h; simp at h
          | some q =>
            obtain ⟨iv, s₂⟩ := q
            rw [hi] at h
            have Ha := ih.1 fuel a s av s₁ (by simp at hsz; omega) ha
            have Hi := ih.1 fuel i s₁ iv s₂ (by simp at hsz; omega) hi
            have hs2 : s' = s₂ := by
              cases iv <;> simp at h <;> exact h.2.symm
            subst hs2
            refine ⟨fun x hx => ?_, fun hk => Hi.2 (Ha.2 hk)⟩
            rcases Hi.1 x hx with h3 | h3
            · rcases Ha.1 x h3 with h4 | h4
              · exact Or.inl h4
              · right; simp only [declFuns, List.mem_append]; exact Or.inl h4
            · right; simp only [declFuns, List.mem_append]; exact Or.inr h3
    · -- interpretOpt
      intro fuel o s v s' hsz h
      cases o with
      | none =>
        simp [interpretOpt] at h
        obtain ⟨h1, h2⟩ := h
        subst h1; subst h2
        exact ⟨fun x hx => Or.inl hx, fun k => k⟩
      | some eb =>
        simp only [interpretOpt] at h
        have H := ih.1 fuel eb s v s' (by simp at hsz; omega) h
        refine ⟨fun x hx => ?_, H.2⟩
        rcases H.1 x hx with h3 | h3
        · exact Or.inl h3
        · right; simpa [declFunsOpt] using h3
    · -- interpretSeq
      intro fuel sts s r v s' hsz h
      cases sts with
      | nil =>
        simp [interpretSeq] at h
        obtain ⟨h1, h2⟩ := h
        subst h1; subst h2
        exact ⟨fun x hx => Or.inl hx, fun k => k⟩
      | cons st sts =>
        simp only [interpretSeq] at h
        cases hst : interpretF fuel st s with
        | none => rw [hst] at h; simp at h
        | some p =>
          obtain ⟨v₁, s₁⟩ := p
          rw [hst] at h
          simp at h
          have H1 := ih.1 fuel st s v₁ s₁ (by simp at hsz; omega) hst
          have H2 := ih.2.2.1 fuel sts s₁ v₁ v s' (by simp at hsz; omega) h
          refine ⟨fun x hx => ?_, fun hk => H2.2 (H1.2 hk)⟩
          rcases H2.1 x hx with h3 | h3
          · rcases H1.1 x h3 with h4 | h4
            · exact Or.inl h4
            · right; simp only [declFunsList, List.mem_append]; exact Or.inl h4
          · right; simp only [declFunsList, List.mem_append]; exact Or.inr h3
    · -- interpretList
      intro fuel els s vs s' hsz h
      cases els with
      | nil =>
        simp [interpretList] at h
        obtain ⟨h1, h2⟩ := h
        subst h1; subst h2
        exact ⟨fun x hx => Or.inl hx, fun k => k⟩
      | cons el els =>
        simp only [interpretList] at h
        cases he : interpretF fuel el s with
        | none => rw [he] at h; simp at h
        | some p =>
          obtain ⟨v₁, s₁⟩ := p
          rw [he] at h
          simp at h
          cases hrest : interpretList fuel els s₁ with
          | none => rw [hrest] at h; simp at h
          | some q =>
            obtain ⟨vs₁, s₂⟩ := q
            rw [hrest] at h
            simp at h
            obtain ⟨h1, h2⟩ := h
            subst h1; subst h2
            have H1 := ih.1 fuel el s v₁ s₁ (by simp at hsz; omega) he
            have H2 := ih.2.2.2.1 fuel els s₁ vs₁ s₂ (by simp at hsz; omega) hrest
            refine ⟨fun x hx => ?_, fun hk => H2.2 (H1.2 hk)⟩
            rcases H2.1 x hx with h3 | h3
            · rcases H1.1 x h3 with h4 | h4
              · exact Or.inl h4
              · right; simp only [declFunsList, List.mem_append]; exact Or.inl h4
            · right; simp only [declFunsList, List.mem_append]; exact Or.inr h3
    · -- evalBind
      intro fuel ps args caller callee c' d' hsz h
      cases ps with
      | nil =>
        simp [evalBind] at h
        obtain ⟨h1, h2⟩ := h
        subst h1; subst h2
        exact ⟨fun x hx => Or.inl hx, fun k => k⟩
      | cons p ps =>
        cases args with
        | nil =>
          simp [evalBind] at h
          obtain ⟨h1, h2⟩ := h
          subst h1; subst h2
          exact ⟨fun x hx => Or.inl hx, fun k => k⟩
        | cons a args =>
          simp only [evalBind] at h
          cases ha : interpretF fuel a caller with
          | none => rw [ha] at h; simp at h
          | some q =>
            obtain ⟨v₁, caller₁⟩ := q
            rw [ha] at h
            simp at h
            have H1 := ih.1 fuel a caller v₁ caller₁ (by simp at hsz; omega) ha
            have H2 := ih.2.2.2.2.1 fuel ps args caller₁ (callee.assign p v₁)
              c' d' (by simp at hsz; omega) h
            refine ⟨fun x hx => ?_, fun hk => H2.2 (H1.2 hk)⟩
            rcases H2.1 x hx with h3 | h3
            · rcases H1.1 x h3 with h4 | h4
              · exact Or.inl h4
              · right; simp only [declFunsList, List.mem_append]; exact Or.inl h4
            · right; simp only [declFunsList, List.mem_append]; exact Or.inr h3
    · -- evalGenerics
      intro fuel gens args s s' b hsz h
      cases gens with
      | nil =>
        simp [evalGenerics] at h
        obtain ⟨h1, h2⟩ := h
        subst h1; subst h2
        exact ⟨fun x hx => Or.inl hx, fun k => k⟩
      | cons g gens =>
        obtain ⟨gn, gc⟩ := g
        cases args with
        | nil =>
          rw [evalGenerics_nil_args] at h
          simp at h
          obtain ⟨h1, h2⟩ := h
          subst h1; subst h2
          exact ⟨fun x hx => Or.inl hx, fun k => k⟩
        | cons argn args =>
          simp only [evalGenerics] at h
          cases ha : interpretF fuel argn s with
          | none => rw [ha] at h; simp at h
          | some q =>
            obtain ⟨v₁, s₁⟩ := q
            rw [ha] at h
            have H1 := ih.1 fuel argn s v₁ s₁ (by simp at hsz; omega) ha
            by_cases hcf : constraintFails gc v₁ = true
            · simp [hcf] at h
              obtain ⟨h1, h2⟩ := h
              subst h1; subst h2
              refine ⟨fun x hx => ?_, fun hk => H1.2 hk⟩
              rcases H1.1 x hx with h3 | h3
              · exact Or.inl h3
              · right; simp only [declFunsList, List.mem_append]; exact Or.inl h3
            · simp [hcf] at h
              have H2 := ih.2.2.2.2.2 fuel gens args s₁ s' b (by simp at hsz; omega) h
              refine ⟨fun x hx => ?_, fun hk => H2.2 (H1.2 hk)⟩
              rcases H2.1 x hx with h3 | h3
              · rcases H1.1 x h3 with h4 | h4
                · exact Or.inl h4
                · right; simp only [declFunsList, List.mem_append]; exact Or.inl h4
              · right; simp only [declFunsList, List.mem_append]; exact Or.inr h3

/-- Growth bound: one evaluation step can add at most the weight of the
node's own declarations to the function table. -/
theorem fw_after_interp (fuel : Nat) (n : ASTNode) (s : AbstractState) (v : AV)
    (s' : AbstractState) (hk : KN s) (h : interpretF fuel n s = some (v, s')) :
    fw s'.funcs ≤ fw s.funcs + nweight n ∧ KN s' := by
  have H := (interp_origin (sizeOf n)).1 fuel n s v s' le_rfl h
  have hk' := H.2 hk
  refine ⟨?_, hk'⟩
  have h1 := fw_le_of_origin s.funcs (declFuns n) s'.funcs hk' H.1
  have h2 := dw_le n
  omega

/-- Growth bound for the parameter-binding pass (caller state). -/
theorem fw_after_evalBind (fuel : Nat) (ps : List String) (args : List ASTNode)
    (caller callee c' d' : AbstractState) (hk : KN caller)
    (h : evalBind fuel ps args caller callee = some (c', d')) :
    fw c'.funcs ≤ fw caller.funcs + nweightList args ∧ KN c' := by
  have H := (interp_origin (sizeOf args)).2.2.2.2.1 fuel ps args caller callee c' d'
    le_rfl h
  have hk' := H.2 hk
  refine ⟨?_, hk'⟩
  have h1 := fw_le_of_origin caller.funcs (declFunsList args) c'.funcs hk' H.1
  have h2 := dwList_le args
  omega

/-- Growth bound for the generics pass. -/
theorem fw_after_evalGenerics (fuel : Nat) (gens : List (String × Option String))
    (args : List ASTNode) (s s' : AbstractState) (b : Bool) (hk : KN s)
    (h : evalGenerics fuel gens args s = some (s', b)) :
    fw s'.funcs ≤ fw s.funcs + nweightList args ∧ KN s' := by
  have H := (interp_origin (sizeOf args)).2.2.2.2.2 fuel gens args s s' b le_rfl h
  have hk' := H.2 hk
  refine ⟨?_, hk'⟩
  have h1 := fw_le_of_origin s.funcs (declFunsList args) s'.funcs hk' H.1
  have h2 := dwList_le args
  omega

/-- The parameter-binding pass never touches the callee's function table. -/
theorem evalBind_callee_funcs :
    ∀ (fuel : Nat) (ps : List String) (args : List ASTNode)
      (caller callee c' d' : AbstractState),
      evalBind fuel ps args caller callee = some (c', d') → d'.funcs = callee.funcs := by
  intro fuel ps
  induction ps with
  | nil =>
    intro args caller callee c' d' h
    simp [evalBind] at h
    rw [← h.2]
  | cons p ps ih =>
    intro args caller callee c' d' h
    cases args with
    | nil =>
      simp [evalBind] at h
      rw [← h.2]
    | cons a args =>
      simp only [evalBind] at h
      cases ha : interpretF fuel a caller with
      | none => rw [ha] at h; simp at h
      | some q =>
        obtain ⟨v₁, caller₁⟩ := q
        rw [ha] at h
        simp at h
        exact (ih args caller₁ (callee.assign p v₁) c' d' h).trans
          (assign_funcs callee p v₁)

/-- Fuel sufficiency, jointly for the six interpreter functions: whenever
the fuel is at least the weight of the stored function bodies plus the
weight of the node, evaluation succeeds.  Induction on the bound `K`; the
call into a function body strictly decreases it because the fresh callee
state has an empty function table. -/
theorem interp_total_aux : ∀ K : Nat,
    (∀ (fuel : Nat) (n : ASTNode) (s : AbstractState), KN s →
      fw s.funcs + nweight n ≤ K → K ≤ fuel → (interpretF fuel n s).isSome) ∧
    (∀ (fuel : Nat) (o : Option ASTNode) (s : AbstractState), KN s →
      fw s.funcs + nweightOpt o ≤ K → K ≤ fuel → (interpretOpt fuel o s).isSome) ∧
    (∀ (fuel : Nat) (sts : List ASTNode) (s : AbstractState) (r : AV), KN s →
      fw s.funcs + nweightList sts ≤ K → K ≤ fuel →
      (interpretSeq fuel sts s r).isSome) ∧
    (∀ (fuel : Nat) (els : List ASTNode) (s : AbstractState), KN s →
      fw s.funcs + nweightList els ≤ K → K ≤ fuel →
      (interpretList fuel els s).isSome) ∧
    (∀ (fuel : Nat) (ps : List String) (args : List ASTNode)
        (caller callee : AbstractState), KN caller →
      fw caller.funcs + nweightList args ≤ K → K ≤ fuel →
      (evalBind fuel ps args caller callee).isSome) ∧
    (∀ (fuel : Nat) (gens : List (String × Option String)) (args : List ASTNode)
        (s : AbstractState), KN s →
      fw s.funcs + nweightList args ≤ K → K ≤ fuel →
      (evalGenerics fuel gens args s).isSome) := by
  intro K
  induction K with
  | zero =>
    refine ⟨?_, ?_, ?_, ?_, ?_, ?_⟩
    · intro fuel n s hk hb hf
      exact absurd hb (by have := nweight_pos n; omega)
    · intro fuel o s hk hb hf
      cases o with
      | none => simp [interpretOpt]
      | some eb => exact absurd hb (by have := nweight_pos eb; simp [nweightOpt]; omega)
    · intro fuel sts s r hk hb hf
      cases sts with
      | nil => simp [interpretSeq]
      | cons st sts =>
        exact absurd hb (by have := nweight_pos st; simp [nweightList]; omega)
    · intro fuel els s hk hb hf
      cases els with
      | nil => simp [interpretList]
      | cons el els =>
        exact absurd hb (by have := nweight_pos el; simp [nweightList]; omega)
    · intro fuel ps args caller callee hk hb hf
      cases ps with
      | nil => simp [evalBind]
      | cons p ps =>
        cases args with
        | nil => simp [evalBind]
        | cons a args =>
          exact absurd hb (by have := nweight_pos a; simp [nweightList]; omega)
    · intro fuel gens args s hk hb hf
      cases args with
      | nil =>
        cases gens with
        | nil => simp [evalGenerics]
        | cons g gens => simp [evalGenerics_nil_args]
      | cons argn args =>
        cases gens with
        | nil => simp [evalGenerics]
        | cons g gens =>
          exact absurd hb (by have := nweight_pos argn; simp [nweightList]; omega)
  | succ K ih =>
    have P1 : ∀ (fuel : Nat) (n : ASTNode) (s : AbstractState), KN s →
        fw s.funcs + nweight n ≤ K + 1 → K + 1 ≤ fuel → (interpretF fuel n s).isSome := by
      intro fuel n s hk hb hf
      cases n with
      | literal lv => simp [interpretF]
      | var name => simp [interpretF]
      | assignment t value =>
        have H1 := ih.1 fuel value s hk (by simp [nweight] at hb; omega) (by omega)
        obtain ⟨⟨v₁, s₁⟩, hp1⟩ := Option.isSome_iff_exists.mp H1
        simp [interpretF, hp1]
      | binaryOp op l r =>
        have H1 := ih.1 fuel l s hk (by simp [nweight] at hb; omega) (by omega)
        obtain ⟨⟨lv, s₁⟩, hp1⟩ := Option.isSome_iff_exists.mp H1
        have G1 := fw_after_interp fuel l s lv s₁ hk hp1
        have H2 := ih.1 fuel r s₁ G1.2
          (by have := G1.1; simp [nweight] at hb; omega) (by omega)
        obtain ⟨⟨rv, s₂⟩, hp2⟩ := Option.isSome_iff_exists.mp H2
        simp [interpretF, hp1, hp2]
      | ifStatement c t e =>
        have Hc := ih.1 fuel c s hk (by simp [nweight] at hb; omega) (by omega)
        obtain ⟨⟨cv, s₀⟩, hpc⟩ := Option.isSome_iff_exists.mp Hc
        have Gc := fw_after_interp fuel c s cv s₀ hk hpc
        have Ht := ih.1 fuel t s₀ Gc.2
          (by have := Gc.1; simp [nweight] at hb; omega) (by omega)
        obtain ⟨⟨tv, thenS⟩, hpt⟩ := Option.isSome_iff_exists.mp Ht
        have He := ih.2.1 fuel e s₀ Gc.2
          (by have := Gc.1; simp [nweight] at hb; omega) (by omega)
        obtain ⟨⟨ev, elseS⟩, hpe⟩ := Option.isSome_iff_exists.mp He
        simp [interpretF, hpc, hpt, hpe]
      | whileLoop c b =>
        have Hb := ih.1 fuel b s hk (by simp [nweight] at hb; omega) (by omega)
        obtain ⟨⟨bv, loopS⟩, hpb⟩ := Option.isSome_iff_exists.mp Hb
        simp [interpretF, hpb]
      | block stmts =>
        have H := ih.2.2.1 fuel stmts s .undefined hk
          (by simp [nweight] at hb; omega) (by omega)
        simp only [interpretF]
        exact H
      | functionDecl name params gens body => simp [interpretF]
      | functionCall fn args =>
        cases fn
        case var fname =>
          cases hlk : lookupStr s.funcs fname with
          | none => simp [interpretF, hlk]
          | some func =>
            have HB1 := ih.2.2.2.2.1 fuel func.params args s AbstractState.new hk
              (by simp [nweight] at hb; omega) (by omega)
            obtain ⟨⟨s₁, k₁⟩, hp1⟩ := Option.isSome_iff_exists.mp HB1
            have G1 := fw_after_evalBind fuel func.params args s AbstractState.new
              s₁ k₁ hk hp1
            have HG := ih.2.2.2.2.2 fuel func.generics args s₁ G1.2
              (by have := G1.1; simp [nweight] at hb; omega) (by omega)
            obtain ⟨⟨s₂, flag⟩, hpg⟩ := Option.isSome_iff_exists.mp HG
            cases flag with
            | true => simp [interpretF, hlk, hp1, hpg]
            | false =>
              have G2 := fw_after_evalGenerics fuel func.generics args s₁ s₂ false
                G1.2 hpg
              have HB2 := ih.2.2.2.2.1 fuel func.params args s₂ k₁ G2.2
                (by have := G1.1; have := G2.1; simp [nweight] at hb; omega) (by omega)
              obtain ⟨⟨s₃, k₂⟩, hp2⟩ := Option.isSome_iff_exists.mp HB2
              have e1 := evalBind_callee_funcs fuel func.params args s
                AbstractState.new s₁ k₁ hp1
              have e2 := evalBind_callee_funcs fuel func.params args s₂ k₁ s₃ k₂ hp2
              have hk2 : KN k₂ := by
                show ((k₂.funcs).map Prod.fst).Nodup
                rw [e2, e1]
                simp [AbstractState.new]
              have hwf := lookupStr_fw s.funcs fname func hlk
              have hfz : ¬ fuel = 0 := by omega
              have Hbody := ih.1 (fuel - 1) func.body k₂ hk2
                (by
                  have h3 : fw k₂.funcs = 0 := by
                    rw [fw, e2, e1]
                    simp [AbstractState.new]
                  have h4 : nweight func.body + 1 ≤ fw s.funcs := by
                    have := hwf
                    simp [funcWeight] at this
                    omega
                  simp [nweight] at hb
                  omega)
                (by omega)
              obtain ⟨⟨res, sd⟩, hpb⟩ := Option.isSome_iff_exists.mp Hbody
              simp [interpretF, hlk, hp1, hpg, hp2, hfz, hpb]
        all_goals simp [interpretF]
      | arrayLiteral els =>
        have H := ih.2.2.2.1 fuel els s hk (by simp [nweight] at hb; omega) (by omega)
        obtain ⟨⟨vs, s₁⟩, hp1⟩ := Option.isSome_iff_exists.mp H
        simp [interpretF, hp1]
      | arrayIndex a i =>
        have H1 := ih.1 fuel a s hk (by simp [nweight] at hb; omega) (by omega)
        obtain ⟨⟨av, s₁⟩, hp1⟩ := Option.isSome_iff_exists.mp H1
        have G1 := fw_after_interp fuel a s av s₁ hk hp1
        have H2 := ih.1 fuel i s₁ G1.2
          (by have := G1.1; simp [nweight] at hb; omega) (by omega)
        obtain ⟨⟨iv, s₂⟩, hp2⟩ := Option.isSome_iff_exists.mp H2
        cases iv <;> simp [interpretF, hp1, hp2]
    refine ⟨P1, ?_, ?_, ?_, ?_, ?_⟩
    · -- interpretOpt
      intro fuel o s hk hb hf
      cases o with
      | none => simp [interpretOpt]
      | some eb =>
        simp only [interpretOpt]
        exact P1 fuel eb s hk (by simpa [nweightOpt] using hb) hf
    · -- interpretSeq
      intro fuel sts
      induction sts with
      | nil =>
        intro s r hk hb hf
        simp [interpretSeq]
      | cons st sts ihs =>
        intro s r hk hb hf
        have H1 := P1 fuel st s hk (by simp [nweightList] at hb; omega) hf
        obtain ⟨⟨v₁, s₁⟩, hp1⟩ := Option.isSome_iff_exists.mp H1
        have G := fw_after_interp fuel st s v₁ s₁ hk hp1
        have H2 := ihs s₁ v₁ G.2
          (by have := G.1; simp [nweightList] at hb; omega) hf
        simp only [interpretSeq, hp1]
        exact H2
    · -- interpretList
      intro fuel els
      induction els with
      | nil =>
        intro s hk hb hf
        simp [interpretList]
      | cons el els ihe =>
        intro s hk hb hf
        have H1 := P1 fuel el s hk (by simp [nweightList] at hb; omega) hf
        obtain ⟨⟨v₁, s₁⟩, hp1⟩ := Option.isSome_iff_exists.mp H1
        have G := fw_after_interp fuel el s v₁ s₁ hk hp1
        have H2 := ihe s₁ G.2 (by have := G.1; simp [nweightList] at hb; omega) hf
        obtain ⟨⟨vs₁, s₂⟩, hp2⟩ := Option.isSome_iff_exists.mp H2
        simp [interpretList, hp1, hp2]
    · -- evalBind
      intro fuel ps
      induction ps with
      | nil =>
        intro args caller callee hk hb hf
        simp [evalBind]
      | cons p ps ihp =>
        intro args caller callee hk hb hf
        cases args with
        | nil => simp [evalBind]
        | cons a args =>
          have H1 := P1 fuel a caller hk (by simp [nweightList] at hb; omega) hf
          obtain ⟨⟨v₁, caller₁⟩, hp1⟩ := Option.isSome_iff_exists.mp H1
          have G := fw_after_interp fuel a caller v₁ caller₁ hk hp1
          have H2 := ihp args caller₁ (callee.assign p v₁) G.2
            (by have := G.1; simp [nweightList] at hb; omega) hf
          simp only [evalBind, hp1]
          exact H2
    · -- evalGenerics
      intro fuel gens args
      induction args generalizing gens with
      | nil =>
        intro s hk hb hf
        cases gens with
        | nil => simp [evalGenerics]
        | cons g gens => simp [evalGenerics_nil_args]
      | cons argn args iha =>
        intro s hk hb hf
        cases gens with
        | nil => simp [evalGenerics]
        | cons g gens =>
          obtain ⟨gn, gc⟩ := g
          have H1 := P1 fuel argn s hk (by simp [nweightList] at hb; omega) hf
          obtain ⟨⟨v₁, s₁⟩, hp1⟩ := Option.isSome_iff_exists.mp H1
          have G := fw_after_interp fuel argn s v₁ s₁ hk hp1
          by_cases hcf : constraintFails gc v₁ = true
          · simp [evalGenerics, hp1, hcf]
          · have H2 := iha gens s₁ G.2
              (by have := G.1; simp [nweightList] at hb; omega) hf
            simp only [evalGenerics, hp1]
            simp only [hcf, if_false]
            exact H2

/-- C8: the interpreter is total.  `interpret` in the Rust source recurses
without any structural bound only when it enters a function body looked up
in the state; the embedding makes that single recursion fuel-counted, and
this theorem shows the explicit fuel budget `fw s.funcs + nweight n` (the
total weight of the stored function bodies plus the weight of the node,
call arguments counted once per evaluation pass) always suffices: for
every AST node and every state whose function table is a valid map
(duplicate-free names, as a Rust `HashMap` guarantees), evaluation
terminates with `some` result — no arm panics or signals failure, and the
unresolved cases all return a value (`Undefined`) rather than diverging.
Recursive calls terminate because the fresh callee state carries an empty
function table. -/
theorem C8_interpret_total :
    ∀ (n : ASTNode) (s : AbstractState), KN s →
      ∃ (v : AV) (s' : AbstractState),
        interpretF (fw s.funcs + nweight n) n s = some (v, s') := by
  intro n s hk
  have H := (interp_total_aux (fw s.funcs + nweight n)).1
    (fw s.funcs + nweight n) n s hk le_rfl le_rfl
  obtain ⟨⟨v, s'⟩, hp⟩ := Option.isSome_iff_exists.mp H
  exact ⟨v, s', hp⟩

/-- C8 witness: totality instantiated at the §8 branching scenario run
from the empty state. -/
theorem C8_witness :
    KN AbstractState.new ∧
      ∃ (v : AV) (s' : AbstractState),
        interpretF (fw AbstractState.new.funcs + nweight ifScenario) ifScenario
          AbstractState.new = some (v, s') :=
  ⟨by simp [KN, AbstractState.new],
   C8_interpret_total ifScenario AbstractState.new (by simp [KN, AbstractState.new])⟩

namespace Constraint

/-- `Type` from `constraint/src/main.rs` (`Type` is reserved in Lean);
`tvar n` renders `Type::Var(TypeVar(n))` with the `TypeVar` newtype
inlined to its `usize` index. -/
inductive Ty where
  | int : Ty
  | bool : Ty
  | tvar : Nat → Ty
  | func : Ty → Ty → Ty
  deriving DecidableEq, Repr

/-- Association-list lookup, modelling `HashMap::get` for
`TypeVar`-keyed maps. -/
def lookupNat {α : Type} : List (Nat × α) → Nat → Option α
  | [], _ => none
  | (k, v) :: rest, key => if k = key then some v else lookupNat rest key

/-- Association-list insert-or-overwrite, modelling `HashMap::insert` for
`TypeVar`-keyed maps; fresh keys are appended in insertion order. -/
def insertNat {α : Type} : List (Nat × α) → Nat → α → List (Nat × α)
  | [], k, v => [(k, v)]
  | (k', v') :: rest, k, v =>
    if k' = k then (k, v) :: rest else (k', v') :: insertNat rest k v

/-- `TypeContext` from `constraint/src/main.rs`. -/
structure TypeContext where
  next_var_id : Nat
  substitutions : List (Nat × Ty)
  env : List (String × Ty)

/-- `TypeContext::new`. -/
def TypeContext.new : TypeContext := ⟨0, [], []⟩

/-- `TypeContext::new_type_var`. -/
def new_type_var (ctx : TypeContext) : Ty × TypeContext :=
  (.tvar ctx.next_var_id, { ctx with next_var_id := ctx.next_var_id + 1 })

/-- `TypeContext::lookup_type` with a fuel parameter bounding the
substitution-chain recursion (`none` means fuel ran out; the Rust code
relies on the store being acyclic for termination).  A resolved variable
is path-compressed by re-inserting the final type. -/
def lookup_typeF : Nat → TypeContext → Ty → Option (Ty × TypeContext)
  | 0, _, _ => none
  | fuel + 1, ctx, t =>
    match t with
    | .tvar tv =>
      match lookupNat ctx.substitutions tv with
      | some tsub =>
        match lookup_typeF fuel ctx tsub with
        | none => none
        | some (tfinal, ctx₁) =>
          some (tfinal,
            { ctx₁ with substitutions := insertNat ctx₁.substitutions tv tfinal })
      | none => some (t, ctx)
    | _ => some (t, ctx)

/-- `occurs_check` from `constraint/src/main.rs`, fuelled.  Note the
faithful rendering of the Rust comparison `tv == &tv2`: in the `Var` arm
the *scrutinee's* variable `tv` (not the checked variable `v`) is
compared with the resolved variable. -/
def occurs_checkF : Nat → Nat → Ty → TypeContext → Option (Bool × TypeContext)
  | 0, _, _, _ => none
  | fuel + 1, v, ty, ctx =>
    match ty with
    | .tvar tv =>
      match lookup_typeF fuel ctx ty with
      | none => none
      | some (t, ctx₁) =>
        match t with
        | .tvar tv₂ => some (tv == tv₂, ctx₁)
        | _ => occurs_checkF fuel v t ctx₁
    | .func t₁ t₂ =>
      match occurs_checkF fuel v t₁ ctx with
      | none => none
      | some (true, ctx₁) => some (true, ctx₁)
      | some (false, ctx₁) => occurs_checkF fuel v t₂ ctx₁
    | _ => some (false, ctx)

/-- The `Var` arm of `TypeContext::unify` (`main.rs` lines 87-96): a
variable resolving to itself unifies trivially; otherwise the occurs
check gates inserting the binding.  The `Err` payloads stand in for the
formatted Rust messages. -/
def unify_varF (fuel : Nat) (tv : Nat) (t : Ty) (ctx : TypeContext) :
    Option (Except String Unit × TypeContext) :=
  if t = .tvar tv then some (.ok (), ctx)
  else
    match occurs_checkF fuel tv t ctx with
    | none => none
    | some (true, ctx₁) => some (.error "Occurs check failed", ctx₁)
    | some (false, ctx₁) =>
      some (.ok (), { ctx₁ with substitutions := insertNat ctx₁.substitutions tv t })

/-- `TypeContext::unify`, fuelled: resolve both sides, then match on the
resolved pair exactly as the Rust `match` does (the or-pattern
`(&Var(tv), t) | (t, &Var(tv))` tries the left alternative first). -/
def unifyF : Nat → Ty → Ty → TypeContext → Option (Except String Unit × TypeContext)
  | 0, _, _, _ => none
  | fuel + 1, t1, t2, ctx =>
    match lookup_typeF fuel ctx t1 with
    | none => none
    | some (a, ctx₁) =>
      match lookup_typeF fuel ctx₁ t2 with
      | none => none
      | some (b, ctx₂) =>
        match a, b with
        | .int, .int => some (.ok (), ctx₂)
        | .bool, .bool => some (.ok (), ctx₂)
        | .tvar tv, t => unify_varF fuel tv t ctx₂
        | t, .tvar tv => unify_varF fuel tv t ctx₂
        | .func a₁ a₂, .func b₁ b₂ =>
          match unifyF fuel a₁ b₁ ctx₂ with
          | none => none
          | some (.error e, ctx₃) => some (.error e, ctx₃)
          | some (.ok _, ctx₃) => unifyF fuel a₂ b₂ ctx₃
        | _, _ => some (.error "Type mismatch", ctx₂)

/-- The type variables occurring in a type. -/
def varsIn : Ty → List Nat
  | .int => []
  | .bool => []
  | .tvar n => [n]
  | .func a b => varsIn a ++ varsIn b

/-- Whether a type is a bare variable. -/
def isVarTy : Ty → Bool
  | .tvar _ => true
  | _ => false

/-- Well-formedness of an (insertion-ordered) substitution store relative
to the set `seen` of keys inserted earlier: every entry has a fresh key,
a non-variable target, and target variables referring only to earlier
keys. -/
def GoodSubstAux : List Nat → List (Nat × Ty) → Prop
  | _, [] => True
  | seen, (k, t) :: rest =>
    k ∉ seen ∧ isVarTy t = false ∧ (∀ w ∈ varsIn t, w ∈ seen) ∧
      GoodSubstAux (k :: seen) rest

/-- Well-formedness of the substitution store. -/
def GoodSubst (l : List (Nat × Ty)) : Prop := GoodSubstAux [] l

/-- One resolution step through the store: `u`'s entry mentions `w`. -/
def substStep (l : List (Nat × Ty)) (u w : Nat) : Prop :=
  ∃ t, lookupNat l u = some t ∧ w ∈ varsIn t

/-- No type variable resolves, directly or through chained entries, to a
type containing that same variable. -/
def Acyclic (l : List (Nat × Ty)) : Prop :=
  ∀ u, ¬ Relation.TransGen (substStep l) u u

/-- The contexts reachable from `TypeContext::new` by any sequence of
`new_type_var`, `lookup_type` and `unify` calls. -/
inductive ReachableCtx : TypeContext → Prop where
  | new : ReachableCtx TypeContext.new
  | newTypeVar : ∀ ctx, ReachableCtx ctx → ReachableCtx (new_type_var ctx).2
  | lookup : ∀ ctx fuel t r ctx', ReachableCtx ctx →
      lookup_typeF fuel ctx t = some (r, ctx') → ReachableCtx ctx'
  | unify : ∀ ctx fuel t₁ t₂ res ctx', ReachableCtx ctx →
      unifyF fuel t₁ t₂ ctx = some (res, ctx') → ReachableCtx ctx'

theorem lookupNat_eq_none {α : Type} (l : List (Nat × α)) (k : Nat) :
    lookupNat l k = none ↔ k ∉ l.map Prod.fst := by
  induction l with
  | nil => simp [lookupNat]
  | cons e l ih =>
    obtain ⟨k', v'⟩ := e
    by_cases h : k' = k
    · subst h; simp [lookupNat]
    · simp [lookupNat, h, ih, Ne.symm h]

theorem lookupNat_isSome_mem {α : Type} (l : List (Nat × α)) (k : Nat)
    (h : (lookupNat l k).isSome) : k ∈ l.map Prod.fst := by
  by_cases hk : k ∈ l.map Prod.fst
  · exact hk
  · rw [← lookupNat_eq_none] at hk
    rw [hk] at h
    simp at h

theorem insertNat_self {α : Type} (l : List (Nat × α)) (k : Nat) (v : α)
    (h : lookupNat l k = some v) : insertNat l k v = l := by
  induction l with
  | nil => simp [lookupNat] at h
  | cons e l ih =>
    obtain ⟨k', v'⟩ := e
    by_cases hk : k' = k
    · subst hk
      simp [lookupNat] at h
      simp [insertNat, h]
    · simp [lookupNat, hk] at h
      simp [insertNat, hk, ih h]

theorem insertNat_append {α : Type} (l : List (Nat × α)) (k : Nat) (v : α)
    (h : lookupNat l k = none) : insertNat l k v = l ++ [(k, v)] := by
  induction l with
  | nil => simp [insertNat]
  | cons e l ih =>
    obtain ⟨k', v'⟩ := e
    by_cases hk : k' = k
    · subst hk; simp [lookupNat] at h
    · simp [lookupNat, hk] at h
      simp [insertNat, hk, ih h]

theorem goodAux_lookup (seen : List Nat) (l : List (Nat × Ty)) (k : Nat) (v : Ty)
    (hg : GoodSubstAux seen l) (h : lookupNat l k = some v) :
    isVarTy v = false ∧ ∀ w ∈ varsIn v, w ∈ seen ∨ w ∈ l.map Prod.fst := by
  induction l generalizing seen with
  | nil => simp [lookupNat] at h
  | cons e l ih =>
    obtain ⟨k', v'⟩ := e
    obtain ⟨hk', hv', hw', hrest⟩ := hg
    by_cases hk : k' = k
    · subst hk
      simp [lookupNat] at h
      subst h
      exact ⟨hv', fun w hw => Or.inl (hw' w hw)⟩
    · simp [lookupNat, hk] at h
      obtain ⟨h1, h2⟩ := ih (k' :: seen) hrest h
      refine ⟨h1, fun w hw => ?_⟩
      rcases h2 w hw with h3 | h3
      · rcases List.mem_cons.mp h3 with rfl | h4
        · simp
        · exact Or.inl h4
      · simp [h3]

theorem goodAux_append (seen : List Nat) (l : List (Nat × Ty)) (k : Nat) (t : Ty)
    (hg : GoodSubstAux seen l) (hk1 : k ∉ seen) (hk2 : k ∉ l.map Prod.fst)
    (ht : isVarTy t = false)
    (hw : ∀ w ∈ varsIn t, w ∈ seen ∨ w ∈ l.map Prod.fst) :
    GoodSubstAux seen (l ++ [(k, t)]) := by
  induction l generalizing seen with
  | nil =>
    refine ⟨hk1, ht, fun w hw' => ?_, trivial⟩
    rcases hw w hw' with h | h
    · exact h
    · simp at h
  | cons e l ih =>
    obtain ⟨k', v'⟩ := e
    obtain ⟨hk', hv', hw', hrest⟩ := hg
    refine ⟨hk', hv', hw', ?_⟩
    have hkk' : k' ≠ k := fun he => hk2 (by simp [he])
    have hk2' : k ∉ l.map Prod.fst := fun hm => hk2 (by simp [hm])
    refine ih (k' :: seen) hrest ?_ hk2' ?_
    · intro h
      rcases List.mem_cons.mp h with h | h
      · exact hkk' h.symm
      · exact hk1 h
    · intro w hww
      rcases hw w hww with h | h
      · exact Or.inl (by simp [h])
      · rcases List.mem_map.mp h with ⟨p, hp, hpe⟩
        rcases List.mem_cons.mp hp with rfl | h2
        · exact Or.inl (List.mem_cons.mpr (Or.inl hpe.symm))
        · exact Or.inr (List.mem_map.mpr ⟨p, h2, hpe⟩)

/-- Under a well-formed store, `lookup_type` leaves the context unchanged
(path compression re-inserts an identical entry), and when it returns a
bare variable that variable is unresolved and is the queried type
itself. -/
theorem lookup_typeF_good : ∀ (fuel : Nat) (ctx : TypeContext) (t r : Ty)
    (ctx' : TypeContext), GoodSubst ctx.substitutions →
    lookup_typeF fuel ctx t = some (r, ctx') →
    ctx' = ctx ∧ ∀ u, r = .tvar u → lookupNat ctx.substitutions u = none ∧ r = t := by
  intro fuel
  induction fuel with
  | zero => intro ctx t r ctx' _ h; simp [lookup_typeF] at h
  | succ fuel ih =>
    intro ctx t r ctx' hg h
    match t with
    | .int =>
      simp [lookup_typeF] at h
      obtain ⟨h1, h2⟩ := h
      subst h1; subst h2
      exact ⟨rfl, fun u hu => nomatch hu⟩
    | .bool =>
      simp [lookup_typeF] at h
      obtain ⟨h1, h2⟩ := h
      subst h1; subst h2
      exact ⟨rfl, fun u hu => nomatch hu⟩
    | .func t₁ t₂ =>
      simp [lookup_typeF] at h
      obtain ⟨h1, h2⟩ := h
      subst h1; subst h2
      exact ⟨rfl, fun u hu => nomatch hu⟩
    | .tvar tv =>
      rcases hsub : lookupNat ctx.substitutions tv with _ | tsub
      · simp [lookup_typeF, hsub] at h
        obtain ⟨h1, h2⟩ := h
        subst h1; subst h2
        refine ⟨rfl, fun u hu => ?_⟩
        injection hu with h3
        subst h3
        exact ⟨hsub, rfl⟩
      · have hts := goodAux_lookup [] ctx.substitutions tv tsub hg hsub
        rcases h2 : lookup_typeF fuel ctx tsub with _ | ⟨tfinal, ctx₁⟩
        · simp [lookup_typeF, hsub, h2] at h
        · obtain ⟨hctx, hvar⟩ := ih ctx tsub tfinal ctx₁ hg h2
          subst hctx
          have htf : tfinal = tsub := by
            cases fuel with
            | zero => simp [lookup_typeF] at h2
            | succ f =>
              match tsub, hts.1 with
              | .int, _ => simp [lookup_typeF] at h2; exact h2.symm
              | .bool, _ => simp [lookup_typeF] at h2; exact h2.symm
              | .func a b, _ => simp [lookup_typeF] at h2; exact h2.symm
          subst htf
          simp [lookup_typeF, hsub, h2, insertNat_self _ tv tfinal hsub] at h
          obtain ⟨h3, h4⟩ := h
          subst h3
          refine ⟨?_, fun u hu => ?_⟩
          · rw [← h4]
          · subst hu
            simp [isVarTy] at hts
  termination_by fuel => fuel

/-- Under a well-formed store, `occurs_check` leaves the context
unchanged, and a `false` verdict means every variable of the checked type
is bound in the store. -/
theorem occurs_checkF_good : ∀ (fuel v : Nat) (ty : Ty) (ctx : TypeContext)
    (b : Bool) (ctx' : TypeContext), GoodSubst ctx.substitutions →
    occurs_checkF fuel v ty ctx = some (b, ctx') →
    ctx' = ctx ∧ (b = false → ∀ w ∈ varsIn ty, (lookupNat ctx.substitutions w).isSome) := by
  intro fuel
  induction fuel with
  | zero => intro v ty ctx b ctx' _ h; simp [occurs_checkF] at h
  | succ fuel ih =>
    intro v ty ctx b ctx' hg h
    match ty with
    | .int =>
      simp [occurs_checkF] at h
      obtain ⟨h1, h2⟩ := h
      subst h1; subst h2
      exact ⟨rfl, fun _ w hw => by simp [varsIn] at hw⟩
    | .bool =>
      simp [occurs_checkF] at h
      obtain ⟨h1, h2⟩ := h
      subst h1; subst h2
      exact ⟨rfl, fun _ w hw => by simp [varsIn] at hw⟩
    | .tvar tv =>
      rcases hl : lookup_typeF fuel ctx (.tvar tv) with _ | ⟨t2, ctx₁⟩
      · simp [occurs_checkF, hl] at h
      · obtain ⟨hctx, hchar⟩ := lookup_typeF_good fuel ctx (.tvar tv) t2 ctx₁ hg hl
        simp only [occurs_checkF, hl] at h
        rw [hctx] at h
        rw [hctx] at hl
        match t2, hchar with
        | .tvar u, hchar =>
          obtain ⟨hub, heq⟩ := hchar u rfl
          injection heq with he
          subst he
          simp at h
          obtain ⟨h1, h2⟩ := h
          refine ⟨h2.symm, fun hb => ?_⟩
          rw [h1] at hb
          simp at hb
        | .int, hchar =>
          obtain ⟨hctx2, _⟩ := ih v .int ctx b ctx' hg h
          refine ⟨hctx2, fun _ w hw => ?_⟩
          simp [varsIn] at hw
          subst hw
          rcases htv : lookupNat ctx.substitutions w with _ | ts
          · cases fuel with
            | zero => simp [lookup_typeF] at hl
            | succ f => simp [lookup_typeF, htv] at hl
          · simp
        | .bool, hchar =>
          obtain ⟨hctx2, _⟩ := ih v .bool ctx b ctx' hg h
          refine ⟨hctx2, fun _ w hw => ?_⟩
          simp [varsIn] at hw
          subst hw
          rcases htv : lookupNat ctx.substitutions w with _ | ts
          · cases fuel with
            | zero => simp [lookup_typeF] at hl
            | succ f => simp [lookup_typeF, htv] at hl
          · simp
        | .func u₁ u₂, hchar =>
          obtain ⟨hctx2, _⟩ := ih v (.func u₁ u₂) ctx b ctx' hg h
          refine ⟨hctx2, fun _ w hw => ?_⟩
          simp [varsIn] at hw
          subst hw
          rcases htv : lookupNat ctx.substitutions w with _ | ts
          · cases fuel with
            | zero => simp [lookup_typeF] at hl
            | succ f => simp [lookup_typeF, htv] at hl
          · simp
    | .func t₁ t₂ =>
      rcases ho : occurs_checkF fuel v t₁ ctx with _ | ⟨b₁, ctx₁⟩
      · simp [occurs_checkF, ho] at h
      · obtain ⟨hctx1, hb1⟩ := ih v t₁ ctx b₁ ctx₁ hg ho
        rw [hctx1] at ho
        cases b₁ with
        | true =>
          simp [occurs_checkF, ho] at h
          obtain ⟨h1, h2⟩ := h
          subst h2
          exact ⟨rfl, fun hb => by rw [h1] at hb; simp at hb⟩
        | false =>
          simp [occurs_checkF, ho] at h
          obtain ⟨hctx2, hb2⟩ := ih v t₂ ctx b ctx' hg h
          refine ⟨hctx2, fun hb w hw => ?_⟩
          simp [varsIn] at hw
          rcases hw with hw | hw
          · exact hb1 rfl w hw
          · exact hb2 hb w hw
  termination_by fuel => fuel

/-- The `Var` arm of `unify` preserves well-formedness of the store: the
inserted binding has an unresolved key and a resolved, variable-free-at-
the-leaves target. -/
theorem unify_varF_good (fuel tv : Nat) (t : Ty) (ctx : TypeContext)
    (res : Except String Unit) (ctx' : TypeContext)
    (hg : GoodSubst ctx.substitutions)
    (htv : lookupNat ctx.substitutions tv = none)
    (ht : ∀ u, t = .tvar u → lookupNat ctx.substitutions u = none)
    (h : unify_varF fuel tv t ctx = some (res, ctx')) :
    GoodSubst ctx'.substitutions := by
  by_cases he : t = .tvar tv
  · simp [unify_varF, he] at h
    rw [← h.2]
    exact hg
  · rcases ho : occurs_checkF fuel tv t ctx with _ | ⟨b, ctx₁⟩
    · simp [unify_varF, he, ho] at h
    · obtain ⟨hctx, hvars⟩ := occurs_checkF_good fuel tv t ctx b ctx₁ hg ho
      rw [hctx] at ho
      cases b with
      | true =>
        simp [unify_varF, he, ho] at h
        rw [← h.2]
        exact hg
      | false =>
        simp [unify_varF, he, ho] at h
        rw [← h.2]
        have hnv : isVarTy t = false := by
          match t, ht with
          | .tvar u, ht =>
            have h1 := hvars rfl u (by simp [varsIn])
            rw [ht u rfl] at h1
            simp at h1
          | .int, _ => rfl
          | .bool, _ => rfl
          | .func a b, _ => rfl
        rw [insertNat_append ctx.substitutions tv t htv]
        exact goodAux_append [] ctx.substitutions tv t hg (by simp)
          (by rw [← lookupNat_eq_none]; exact htv) hnv
          (fun w hw => Or.inr (lookupNat_isSome_mem _ _ (hvars rfl w hw)))

/-- `unify` preserves well-formedness of the substitution store, whether
it succeeds or reports an error. -/
theorem unifyF_good : ∀ (fuel : Nat) (t1 t2 : Ty) (ctx : TypeContext)
    (res : Except String Unit) (ctx' : TypeContext), GoodSubst ctx.substitutions →
    unifyF fuel t1 t2 ctx = some (res, ctx') → GoodSubst ctx'.substitutions := by
  intro fuel
  induction fuel with
  | zero => intro t1 t2 ctx res ctx' _ h; simp [unifyF] at h
  | succ fuel ih =>
    intro t1 t2 ctx res ctx' hg h
    rcases hl1 : lookup_typeF fuel ctx t1 with _ | ⟨a, ctx₁⟩
    · simp [unifyF, hl1] at h
    · obtain ⟨hc1, hchar1⟩ := lookup_typeF_good fuel ctx t1 a ctx₁ hg hl1
      rw [hc1] at hl1
      rcases hl2 : lookup_typeF fuel ctx t2 with _ | ⟨b, ctx₂⟩
      · simp [unifyF, hl1, hl2] at h
      · obtain ⟨hc2, hchar2⟩ := lookup_typeF_good fuel ctx t2 b ctx₂ hg hl2
        rw [hc2] at hl2
        simp only [unifyF, hl1, hl2] at h
        match a, b with
        | .int, .int => simp at h; rw [← h.2]; exact hg
        | .int, .bool => simp at h; rw [← h.2]; exact hg
        | .int, .func b₁ b₂ => simp at h; rw [← h.2]; exact hg
        | .bool, .int => simp at h; rw [← h.2]; exact hg
        | .bool, .bool => simp at h; rw [← h.2]; exact hg
        | .bool, .func b₁ b₂ => simp at h; rw [← h.2]; exact hg
        | .func a₁ a₂, .int => simp at h; rw [← h.2]; exact hg
        | .func a₁ a₂, .bool => simp at h; rw [← h.2]; exact hg
        | .tvar tv, .int =>
          simp only [] at h
          exact unify_varF_good fuel tv .int ctx res ctx' hg
            ((hchar1 tv rfl).1) (fun u hu => nomatch hu) h
        | .tvar tv, .bool =>
          simp only [] at h
          exact unify_varF_good fuel tv .bool ctx res ctx' hg
            ((hchar1 tv rfl).1) (fun u hu => nomatch hu) h
        | .tvar tv, .tvar u =>
          simp only [] at h
          exact unify_varF_good fuel tv (.tvar u) ctx res ctx' hg
            ((hchar1 tv rfl).1) (fun w hw => by
              injection hw with hw2
              exact hw2 ▸ (hchar2 u rfl).1) h
        | .tvar tv, .func b₁ b₂ =>
          simp only [] at h
          exact unify_varF_good fuel tv (.func b₁ b₂) ctx res ctx' hg
            ((hchar1 tv rfl).1) (fun u hu => nomatch hu) h
        | .int, .tvar tv =>
          simp only [] at h
          exact unify_varF_good fuel tv .int ctx res ctx' hg
            ((hchar2 tv rfl).1) (fun u hu => nomatch hu) h
        | .bool, .tvar tv =>
          simp only [] at h
          exact unify_varF_good fuel tv .bool ctx res ctx' hg
            ((hchar2 tv rfl).1) (fun u hu => nomatch hu) h
        | .func a₁ a₂, .tvar tv =>
          simp only [] at h
          exact unify_varF_good fuel tv (.func a₁ a₂) ctx res ctx' hg
            ((hchar2 tv rfl).1) (fun u hu => nomatch hu) h
        | .func a₁ a₂, .func b₁ b₂ =>
          simp only [] at h
          rcases hu1 : unifyF fuel a₁ b₁ ctx with _ | ⟨r₁, ctx₃⟩
          · rw [hu1] at h; simp at h
          · rw [hu1] at h
            have hg3 := ih a₁ b₁ ctx r₁ ctx₃ hg hu1
            match r₁ with
            | .error e => simp at h; rw [← h.2]; exact hg3
            | .ok _ => exact ih a₂ b₂ ctx₃ res ctx' hg3 h
  termination_by fuel => fuel

theorem lookupNat_append {α : Type} (l₁ l₂ : List (Nat × α)) (k : Nat) :
    lookupNat (l₁ ++ l₂) k =
      match lookupNat l₁ k with
      | some v => some v
      | none => lookupNat l₂ k := by
  induction l₁ with
  | nil => simp [lookupNat]
  | cons e l₁ ih =>
    obtain ⟨k', v'⟩ := e
    by_cases h : k' = k <;> simp [lookupNat, h, ih]

theorem mem_keys_lookupNat_isSome {α : Type} (l : List (Nat × α)) (k : Nat)
    (h : k ∈ l.map Prod.fst) : (lookupNat l k).isSome := by
  rcases he : lookupNat l k with _ | v
  · exact absurd h (lookupNat_eq_none l k |>.mp he)
  · simp

theorem goodAux_of_append (seen : List Nat) (l : List (Nat × Ty)) (e : Nat × Ty)
    (h : GoodSubstAux seen (l ++ [e])) :
    GoodSubstAux seen l ∧ e.1 ∉ seen ∧ e.1 ∉ l.map Prod.fst ∧
      isVarTy e.2 = false ∧ ∀ w ∈ varsIn e.2, w ∈ seen ∨ w ∈ l.map Prod.fst := by
  induction l generalizing seen with
  | nil =>
    obtain ⟨k, t⟩ := e
    obtain ⟨h1, h2, h3, _⟩ := h
    exact ⟨trivial, h1, by simp, h2, fun w hw => Or.inl (h3 w hw)⟩
  | cons e' l ih =>
    obtain ⟨k', t'⟩ := e'
    obtain ⟨hk', hv', hw', hrest⟩ := h
    obtain ⟨g1, g2, g3, g4, g5⟩ := ih (k' :: seen) hrest
    refine ⟨⟨hk', hv', hw', g1⟩, fun hm => g2 (by simp [hm]), ?_, g4, ?_⟩
    · intro hm
      rcases List.mem_map.mp hm with ⟨p, hp, hpe⟩
      rcases List.mem_cons.mp hp with rfl | h2
      · exact g2 (by simp [← hpe])
      · exact g3 (List.mem_map.mpr ⟨p, h2, hpe⟩)
    · intro w hw
      rcases g5 w hw with h5 | h5
      · rcases List.mem_cons.mp h5 with rfl | h6
        · exact Or.inr (by simp)
        · exact Or.inl h6
      · exact Or.inr (by simp [h5])

theorem good_entry_vars (l : List (Nat × Ty)) (hg : GoodSubst l) (u : Nat) (t : Ty)
    (h : lookupNat l u = some t) : ∀ w ∈ varsIn t, w ∈ l.map Prod.fst := by
  intro w hw
  rcases (goodAux_lookup [] l u t hg h).2 w hw with h2 | h2
  · simp at h2
  · exact h2

theorem substStep_append (l : List (Nat × Ty)) (k : Nat) (t : Ty)
    (hg : GoodSubst l) (hk : k ∉ l.map Prod.fst)
    (hv : ∀ w ∈ varsIn t, w ∈ l.map Prod.fst) (a b : Nat)
    (h : substStep (l ++ [(k, t)]) a b) :
    b ∈ l.map Prod.fst ∧ (a ∈ l.map Prod.fst → substStep l a b) := by
  obtain ⟨tt, hlk, hmem⟩ := h
  rw [lookupNat_append] at hlk
  rcases hal : lookupNat l a with _ | v
  · rw [hal] at hlk
    simp [lookupNat] at hlk
    obtain ⟨h1, h2⟩ := hlk
    subst h1
    subst h2
    exact ⟨hv b hmem, fun ha => absurd ha hk⟩
  · rw [hal] at hlk
    simp at hlk
    subst hlk
    exact ⟨good_entry_vars l hg a _ hal b hmem, fun _ => ⟨_, hal, hmem⟩⟩

theorem transGen_append (l : List (Nat × Ty)) (k : Nat) (t : Ty)
    (hg : GoodSubst l) (hk : k ∉ l.map Prod.fst)
    (hv : ∀ w ∈ varsIn t, w ∈ l.map Prod.fst) (u w : Nat)
    (h : Relation.TransGen (substStep (l ++ [(k, t)])) u w) :
    w ∈ l.map Prod.fst ∧
      (u ∈ l.map Prod.fst → Relation.TransGen (substStep l) u w) := by
  induction h with
  | single h1 =>
    obtain ⟨hb, hstep⟩ := substStep_append l k t hg hk hv _ _ h1
    exact ⟨hb, fun hu => Relation.TransGen.single (hstep hu)⟩
  | tail _ h2 ih =>
    obtain ⟨hb, hstep⟩ := substStep_append l k t hg hk hv _ _ h2
    exact ⟨hb, fun hu => Relation.TransGen.tail (ih.2 hu) (hstep ih.1)⟩

/-- A well-formed substitution store has no resolution cycles. -/
theorem good_acyclic (l : List (Nat × Ty)) (hg : GoodSubst l) : Acyclic l := by
  induction l using List.reverseRecOn with
  | nil =>
    intro u h
    have hstep : ∀ a b : Nat, ¬ substStep [] a b := by
      rintro a b ⟨t, hlk, _⟩
      simp [lookupNat] at hlk
    cases h with
    | single h1 => exact hstep _ _ h1
    | tail _ h2 => exact hstep _ _ h2
  | append_singleton l e ih =>
    obtain ⟨k, t⟩ := e
    obtain ⟨g1, _, g3, _, g5⟩ := goodAux_of_append [] l (k, t) hg
    have hv : ∀ w ∈ varsIn t, w ∈ l.map Prod.fst := by
      intro w hw
      rcases g5 w hw with h | h
      · simp at h
      · exact h
    intro u h
    obtain ⟨hu, hcycle⟩ := transGen_append l k t g1 g3 hv u u h
    exact ih g1 u (hcycle hu)

/-- Any context reachable by `new_type_var`, `lookup_type` and `unify`
calls has a well-formed substitution store. -/
theorem reachable_good (ctx : TypeContext) (h : ReachableCtx ctx) :
    GoodSubst ctx.substitutions := by
  induction h with
  | new => trivial
  | newTypeVar ctx hr ih => exact ih
  | lookup ctx fuel t r ctx' hr heq ih =>
    rw [(lookup_typeF_good fuel ctx t r ctx' ih heq).1]
    exact ih
  | unify ctx fuel t₁ t₂ res ctx' hr heq ih =>
    exact unifyF_good fuel t₁ t₂ ctx res ctx' ih heq

/-- C9: the unification component is sound and deterministic.  After any
sequence of `new_type_var`, `lookup_type` and `unify` calls starting from
`TypeContext::new`, the substitution store is well formed and contains no
cyclic substitution: no type variable resolves, directly or through
chained entries, to a type containing that same variable.  The outcome of
`unify` is a function of the context and the two input types. -/
theorem C9_unification_sound_deterministic :
    (∀ ctx : TypeContext, ReachableCtx ctx →
      GoodSubst ctx.substitutions ∧ Acyclic ctx.substitutions) ∧
    (∀ (fuel : Nat) (t₁ t₂ : Ty) (ctx : TypeContext)
        (r₁ r₂ : Option (Except String Unit × TypeContext)),
      unifyF fuel t₁ t₂ ctx = r₁ → unifyF fuel t₁ t₂ ctx = r₂ → r₁ = r₂) := by
  refine ⟨fun ctx hr => ⟨reachable_good ctx hr, good_acyclic _ (reachable_good ctx hr)⟩,
    fun _ _ _ _ _ _ h1 h2 => h1.symm.trans h2⟩

/-- C9 witness: the store obtained by unifying the fresh variable `t0`
with `Int` is reachable, well formed and acyclic. -/
theorem C9_witness :
    GoodSubst ({ next_var_id := 1, substitutions := [(0, Ty.int)], env := [] } :
      TypeContext).substitutions ∧
    Acyclic ({ next_var_id := 1, substitutions := [(0, Ty.int)], env := [] } :
      TypeContext).substitutions := by
  have hr : ReachableCtx ⟨1, [(0, Ty.int)], []⟩ :=
    .unify (new_type_var TypeContext.new).2 2 (.tvar 0) .int (.ok ()) _
      (.newTypeVar TypeContext.new .new) rfl
  exact C9_unification_sound_deterministic.1 _ hr

end Constraint

end TypeChecker
